import Mathlib

/-!
Verification of the version-resolution and branch-synchronization engine of
the `yuheng-dispatch` GitHub action against its natural-language specification.

The TypeScript sources are shallowly embedded below.  Strings are modelled by
Lean `String`, manipulated through their underlying `List Char`; JavaScript
numbers that hold version components are modelled by `Nat` (the semver library
rejects components above `Number.MAX_SAFE_INTEGER`; that bound is irrelevant
to every statement proved here and is not modelled).  The `semver` npm
library functions used by the source (`parse`, `inc`, `gt`, `SemVer.version`)
are embedded following the library's `FULL` regular expression and the
`SemVer.inc` implementation.  Effectful git code is embedded as pure
functions over an explicit environment (an oracle deciding which git
commands succeed) that additionally return the trace of issued git commands.
-/

-- ==================== basic character and list-of-char utilities ====================

/-- Characters allowed in semver alphanumeric identifiers: `[0-9A-Za-z-]`. -/
def isIdChar (c : Char) : Bool :=
  c.isDigit || c.isAlpha || c = '-'

/-- `strStarts p s` : the character list `p` is an initial segment of `s`
(embedding of JavaScript `String.prototype.startsWith`). -/
def strStarts : List Char → List Char → Bool
  | [], _ => true
  | _ :: _, [] => false
  | c :: p, d :: s => c = d && strStarts p s

theorem strStarts_iff_append (p s : List Char) :
    strStarts p s = true ↔ ∃ r, s = p ++ r := by
  induction p generalizing s with
  | nil => simp [strStarts]
  | cons c p ih =>
    cases s with
    | nil => simp [strStarts]
    | cons d s =>
      simp only [strStarts, Bool.and_eq_true, decide_eq_true_eq, ih, List.cons_append,
        List.cons.injEq]
      constructor
      · rintro ⟨rfl, r, rfl⟩
        exact ⟨r, rfl, rfl⟩
      · rintro ⟨r, rfl, rfl⟩
        exact ⟨rfl, r, rfl⟩

/-- Substring containment (embedding of JavaScript `String.prototype.includes`). -/
def containsSub (pat : List Char) : List Char → Bool
  | [] => strStarts pat []
  | c :: s => strStarts pat (c :: s) || containsSub pat s

theorem containsSub_of_starts (pat s : List Char) (h : strStarts pat s = true) :
    containsSub pat s = true := by
  cases s with
  | nil => simpa [containsSub] using h
  | cons c s => simp [containsSub, h]

theorem containsSub_of_append (pat l r : List Char) :
    containsSub pat (l ++ pat ++ r) = true := by
  induction l with
  | nil =>
    exact containsSub_of_starts pat (pat ++ r) ((strStarts_iff_append _ _).mpr ⟨r, by simp⟩)
  | cons c l ih =>
    simp only [List.cons_append, containsSub, Bool.or_eq_true]
    exact Or.inr ih

/-- Splitting a character list at a separator character
(embedding of JavaScript `String.prototype.split` with a single-char separator). -/
def splitOnC (sep : Char) : List Char → List (List Char)
  | [] => [[]]
  | c :: rest =>
    match splitOnC sep rest with
    | [] => [[]]
    | g :: gs => if c = sep then [] :: g :: gs else (c :: g) :: gs

theorem splitOnC_ne_nil (sep : Char) (l : List Char) : splitOnC sep l ≠ [] := by
  cases l with
  | nil => simp [splitOnC]
  | cons c rest =>
    simp only [splitOnC]
    match hsp : splitOnC sep rest with
    | [] => simp
    | g :: gs =>
      by_cases hc : c = sep <;> simp [hc]

/-- Joining groups with a separator: inverse direction of `splitOnC`. -/
def joinSep (sep : Char) : List (List Char) → List Char
  | [] => []
  | [g] => g
  | g :: gs => g ++ sep :: joinSep sep gs

theorem splitOnC_sepfree (sep : Char) (g : List Char)
    (hg : g.all (fun c => c ≠ sep)) : splitOnC sep g = [g] := by
  induction g with
  | nil => simp [splitOnC]
  | cons c rest ih =>
    simp only [List.all_cons, Bool.and_eq_true, decide_eq_true_eq] at hg
    simp only [splitOnC, ih hg.2, if_neg hg.1]

theorem splitOnC_append_sep (sep : Char) (g rest : List Char)
    (hg : g.all (fun c => c ≠ sep)) :
    splitOnC sep (g ++ sep :: rest) = g :: splitOnC sep rest := by
  induction g with
  | nil =>
    simp only [List.nil_append, splitOnC]
    match h : splitOnC sep rest with
    | [] => exact absurd h (splitOnC_ne_nil sep rest)
    | x :: xs => simp
  | cons c gtl ih =>
    simp only [List.all_cons, Bool.and_eq_true, decide_eq_true_eq] at hg
    simp only [List.cons_append, splitOnC, List.append_eq]
    rw [ih hg.2]
    simp [hg.1]

/-- `splitOnC` recovers the groups of a `joinSep` whenever no group contains
the separator. -/
theorem splitOnC_joinSep (sep : Char) (gs : List (List Char)) (hne : gs ≠ [])
    (h : ∀ g ∈ gs, g.all (fun c => c ≠ sep)) :
    splitOnC sep (joinSep sep gs) = gs := by
  induction gs with
  | nil => exact absurd rfl hne
  | cons g gs ih =>
    cases gs with
    | nil =>
      simp only [joinSep]
      exact splitOnC_sepfree sep g (h g (by simp))
    | cons g' gs' =>
      have hj : joinSep sep (g :: g' :: gs') = g ++ sep :: joinSep sep (g' :: gs') := rfl
      rw [hj, splitOnC_append_sep sep g _ (h g (by simp)),
        ih (by simp) (fun x hx => h x (List.mem_cons_of_mem g hx))]

-- ==================== decimal digits of a Nat (`Nat.repr`) ====================

/-- Value of a list of decimal digit characters, most significant first
(the way a semver numeric identifier denotes a number). -/
def digitsToNat (ds : List Char) : Nat :=
  ds.foldl (fun a c => a * 10 + (c.toNat - '0'.toNat)) 0

theorem digitsToNat_append (l : List Char) (c : Char) :
    digitsToNat (l ++ [c]) = digitsToNat l * 10 + (c.toNat - '0'.toNat) := by
  simp [digitsToNat, List.foldl_append]

/-- Reference decimal-digit printer, structured for induction; proven equal to
the character data of `Nat.repr`. -/
def natDigits (n : Nat) : List Char :=
  if h : n < 10 then [Nat.digitChar n]
  else natDigits (n / 10) ++ [Nat.digitChar (n % 10)]
termination_by n
decreasing_by
  exact Nat.div_lt_self (by omega) (by omega)

theorem digitChar_isDigit (n : Nat) (h : n < 10) : (Nat.digitChar n).isDigit = true := by
  interval_cases n <;> decide

theorem digitChar_toNat (n : Nat) (h : n < 10) :
    (Nat.digitChar n).toNat - 48 = n := by
  interval_cases n <;> decide

theorem digitChar_eq_zero_iff (n : Nat) (h : n < 10) :
    Nat.digitChar n = '0' ↔ n = 0 := by
  interval_cases n <;> decide

theorem natDigits_all_digit (n : Nat) : (natDigits n).all Char.isDigit = true := by
  induction n using Nat.strong_induction_on with
  | _ n ih =>
    rw [natDigits]
    by_cases h : n < 10
    · simp [h, digitChar_isDigit n h]
    · have hd : n / 10 < n := Nat.div_lt_self (by omega) (by omega)
      simp only [h, dite_false, List.all_append, Bool.and_eq_true]
      exact ⟨ih (n / 10) hd, by simp [digitChar_isDigit (n % 10) (Nat.mod_lt n (by omega))]⟩

theorem natDigits_ne_nil (n : Nat) : natDigits n ≠ [] := by
  rw [natDigits]
  by_cases h : n < 10 <;> simp [h]

theorem digitsToNat_natDigits (n : Nat) : digitsToNat (natDigits n) = n := by
  induction n using Nat.strong_induction_on with
  | _ n ih =>
    rw [natDigits]
    by_cases h : n < 10
    · simp [digitsToNat, h, digitChar_toNat n h]
    · have hd : n / 10 < n := Nat.div_lt_self (by omega) (by omega)
      simp only [h, dite_false, digitsToNat_append, ih (n / 10) hd,
        show '0'.toNat = 48 from rfl, digitChar_toNat (n % 10) (Nat.mod_lt n (by omega))]
      omega

theorem natDigits_head_ne_zero (n : Nat) (hn : n ≠ 0) :
    (natDigits n).head? ≠ some '0' := by
  induction n using Nat.strong_induction_on with
  | _ n ih =>
    rw [natDigits]
    by_cases h : n < 10
    · simpa [h, digitChar_eq_zero_iff n h]
    · have hd : n / 10 < n := Nat.div_lt_self (by omega) (by omega)
      have hne : n / 10 ≠ 0 := by
        intro hz
        exact h (by omega)
      simpa [h, List.head?_append, natDigits_ne_nil (n / 10)] using ih (n / 10) hd hne

/-- `Nat.toDigitsCore` with enough fuel computes `natDigits`. -/
theorem toDigitsCore_eq_natDigits (fuel n : Nat) (acc : List Char) (hf : n < fuel) :
    Nat.toDigitsCore 10 fuel n acc = natDigits n ++ acc := by
  induction fuel generalizing n acc with
  | zero => omega
  | succ fuel ih =>
    rw [Nat.toDigitsCore, natDigits]
    by_cases h : n / 10 = 0
    · have h10 : n < 10 := by omega
      simp [h, h10, Nat.mod_eq_of_lt h10]
    · have h10 : ¬ n < 10 := by
        intro hlt
        exact h (Nat.div_eq_of_lt hlt)
      have hfd : n / 10 < fuel := by
        have := Nat.div_lt_self (show 0 < n by omega) (show (1 : Nat) < 10 by omega)
        omega
      simp [h, h10, ih (n / 10) _ hfd]

/-- The character data of `Nat.repr n` is `natDigits n`. -/
theorem repr_data (n : Nat) : (Nat.repr n).data = natDigits n := by
  show (Nat.toDigits 10 n).asString.data = natDigits n
  rw [Nat.toDigits, toDigitsCore_eq_natDigits (n + 1) n [] (by omega)]
  simp [List.asString]

theorem repr_all_digit (n : Nat) : (Nat.repr n).data.all Char.isDigit = true := by
  rw [repr_data]; exact natDigits_all_digit n

theorem repr_data_ne_nil (n : Nat) : (Nat.repr n).data ≠ [] := by
  rw [repr_data]; exact natDigits_ne_nil n

theorem repr_head_ne_zero (n : Nat) (hn : n ≠ 0) : (Nat.repr n).data.head? ≠ some '0' := by
  rw [repr_data]; exact natDigits_head_ne_zero n hn

theorem digitsToNat_repr (n : Nat) : digitsToNat (Nat.repr n).data = n := by
  rw [repr_data]; exact digitsToNat_natDigits n

-- ==================== semantic versions (npm `semver` library embedding) ====================

/-- A prerelease (or build) identifier: the `semver` library stores an
all-digits identifier as a JavaScript number and any other identifier as a
string. -/
inductive PreId where
  | num (n : Nat)
  | str (s : List Char)
deriving DecidableEq, Repr

/-- Embedding of the `semver` `SemVer` class: the fields of a parsed version.
`build` is kept because `semver` parses it, although `SemVer.version` (the
canonical string) omits it. -/
structure SemVer where
  major : Nat
  minor : Nat
  patch : Nat
  prerelease : List PreId
  build : List (List Char)
deriving DecidableEq, Repr

/-- Canonical characters of one prerelease identifier (`semver` prints a
numeric identifier back in decimal). -/
def preIdChars : PreId → List Char
  | .num n => (Nat.repr n).data
  | .str s => s

/-- Character data of `SemVer.version` / `SemVer.toString()`: the canonical
`major.minor.patch[-prerelease]` form, build metadata omitted. -/
def svChars (v : SemVer) : List Char :=
  (Nat.repr v.major).data ++ '.' :: (Nat.repr v.minor).data ++ '.' :: (Nat.repr v.patch).data
    ++ (if v.prerelease.isEmpty then [] else '-' :: joinSep '.' (v.prerelease.map preIdChars))

/-- Embedding of `SemVer.prototype.toString` (the `version` property). -/
def svToString (v : SemVer) : String :=
  String.mk (svChars v)

-- ==================== the semver `FULL` grammar parser ====================

/-- Parse a leading run of decimal digits as a semver numeric component
(`0|[1-9]\d*` followed by a non-digit): greedy digits, leading zeros
rejected. Returns the value and the unconsumed remainder. -/
def parseNumComp (l : List Char) : Option (Nat × List Char) :=
  let ds := l.takeWhile Char.isDigit
  let rest := l.dropWhile Char.isDigit
  if ds.isEmpty then none
  else if ds.head? = some '0' && 1 < ds.length then none
  else some (digitsToNat ds, rest)

/-- Parse one prerelease identifier (`0|[1-9]\d*|\d*[a-zA-Z-][a-zA-Z0-9-]*`):
an all-digits identifier must have no leading zero and becomes a number;
otherwise every character must be `[0-9A-Za-z-]` with at least one
non-digit. -/
def parsePreIdent (g : List Char) : Option PreId :=
  if g.isEmpty then none
  else if g.all Char.isDigit then
    if g.head? = some '0' && 1 < g.length then none else some (.num (digitsToNat g))
  else if g.all isIdChar then some (.str g) else none

/-- Parse one build identifier (`[0-9A-Za-z-]+`). -/
def parseBuildIdent (g : List Char) : Option (List Char) :=
  if g.isEmpty then none
  else if g.all isIdChar then some g else none

/-- All-or-nothing traversal of a list through a partial function (the way
`semver` maps its identifier classifier over `split('.')` results). -/
def mapOpt {α β : Type} (f : α → Option β) : List α → Option (List β)
  | [] => some []
  | a :: as =>
    match f a, mapOpt f as with
    | some b, some bs => some (b :: bs)
    | _, _ => none

/-- Parse the `-prerelease[+build]` tail (everything after the first `-`):
the prerelease part extends to the first `+`, the build part follows it. -/
def parseTail (ma mi pa : Nat) (l : List Char) : Option SemVer :=
  match mapOpt parsePreIdent (splitOnC '.' (l.takeWhile (fun c => c ≠ '+'))),
        l.dropWhile (fun c => c ≠ '+') with
  | some pres, [] => some ⟨ma, mi, pa, pres, []⟩
  | some pres, _ :: bs =>
    match mapOpt parseBuildIdent (splitOnC '.' bs) with
    | some bld => some ⟨ma, mi, pa, pres, bld⟩
    | none => none
  | none, _ => none

/-- Expect a literal `.` and return what follows. -/
def expectDot : List Char → Option (List Char)
  | '.' :: r => some r
  | _ => none

/-- Dispatch on what follows the patch component: end of input, a
prerelease (`-`), or build metadata (`+`). -/
def parseAfterPatch (ma mi pa : Nat) : List Char → Option SemVer
  | [] => some ⟨ma, mi, pa, [], []⟩
  | '-' :: r6 => parseTail ma mi pa r6
  | '+' :: r6 =>
    match mapOpt parseBuildIdent (splitOnC '.' r6) with
    | some bld => some ⟨ma, mi, pa, [], bld⟩
    | none => none
  | _ => none

/-- Parser for the semver `FULL` regular expression
`^v?(0|[1-9]\d*)\.(0|[1-9]\d*)\.(0|[1-9]\d*)(-prerelease)?(\+build)?$`,
applied to already-trimmed character data. -/
def parseSemverCore (l0 : List Char) : Option SemVer :=
  match parseNumComp (if l0.head? = some 'v' then l0.tail else l0) with
  | none => none
  | some (ma, r1) =>
    match expectDot r1 with
    | none => none
    | some r2 =>
      match parseNumComp r2 with
      | none => none
      | some (mi, r3) =>
        match expectDot r3 with
        | none => none
        | some r4 =>
          match parseNumComp r4 with
          | none => none
          | some (pa, r5) => parseAfterPatch ma mi pa r5

/-- Both-ends whitespace trim (JavaScript `String.prototype.trim`; the
JavaScript whitespace class is approximated by `Char.isWhitespace`, which
agrees on every ASCII input). -/
def trimChars (l : List Char) : List Char :=
  ((l.dropWhile Char.isWhitespace).reverse.dropWhile Char.isWhitespace).reverse

/-- Embedding of `semver.parse` (strict options): `null` on any rejection.
The `SemVer` constructor rejects inputs longer than `MAX_LENGTH = 256`
before trimming and matching. -/
def semverParse (s : String) : Option SemVer :=
  if 256 < s.data.length then none
  else parseSemverCore (trimChars s.data)

example : semverParse "1.2.3" = some ⟨1, 2, 3, [], []⟩ := by decide
example : semverParse "v1.20.3-beta.4" = some ⟨1, 20, 3, [.str "beta".data, .num 4], []⟩ := by
  decide
example : semverParse "1.2.3-0-beta.1+x.y" =
    some ⟨1, 2, 3, [.str "0-beta".data, .num 1], ["x".data, "y".data]⟩ := by decide
example : semverParse "01.2.3" = none := by decide
example : semverParse "1.2.3-00" = none := by decide
example : semverParse " 1.2.3 " = some ⟨1, 2, 3, [], []⟩ := by decide
example : semverParse "1.2" = none := by decide
example : semverParse "vv1.2.3" = none := by decide
example : svToString ⟨1, 2, 3, [.str "beta".data, .num 4], ["x".data]⟩ = "1.2.3-beta.4" := by
  decide

-- ==================== round-trip lemmas for the semver grammar ====================

theorem mapOpt_roundtrip {α β : Type} (f : α → Option β) (g : β → α)
    (l : List β) (h : ∀ b ∈ l, f (g b) = some b) : mapOpt f (l.map g) = some l := by
  induction l with
  | nil => rfl
  | cons b bs ih =>
    simp only [List.map_cons, mapOpt, h b (by simp), ih (fun x hx => h x (by simp [hx]))]

theorem mapOpt_mem {α β : Type} (f : α → Option β) (l : List α) (res : List β)
    (h : mapOpt f l = some res) : ∀ b ∈ res, ∃ a ∈ l, f a = some b := by
  induction l generalizing res with
  | nil =>
    simp only [mapOpt, Option.some.injEq] at h
    subst h
    simp
  | cons a as ih =>
    simp only [mapOpt] at h
    match hfa : f a, hrec : mapOpt f as with
    | some b, some bs =>
      rw [hfa, hrec] at h
      simp only [Option.some.injEq] at h
      subst h
      intro x hx
      rcases List.mem_cons.mp hx with rfl | hx'
      · exact ⟨a, by simp, hfa⟩
      · obtain ⟨a', ha', hfa'⟩ := ih bs hrec x hx'
        exact ⟨a', by simp [ha'], hfa'⟩
    | some _, none => rw [hfa, hrec] at h; cases h
    | none, _ => rw [hfa] at h; cases h

theorem mapOpt_eq_map {α β : Type} (f : α → Option β) (g : β → α)
    (l : List α) (res : List β) (h : mapOpt f l = some res)
    (hg : ∀ a b, f a = some b → a = g b) : l = res.map g := by
  induction l generalizing res with
  | nil =>
    simp only [mapOpt, Option.some.injEq] at h
    subst h
    rfl
  | cons a as ih =>
    simp only [mapOpt] at h
    match hfa : f a, hrec : mapOpt f as with
    | some b, some bs =>
      rw [hfa, hrec] at h
      simp only [Option.some.injEq] at h
      subst h
      simp only [List.map_cons]
      rw [← hg a b hfa, ← ih bs hrec]
    | some _, none => rw [hfa, hrec] at h; cases h
    | none, _ => rw [hfa] at h; cases h

theorem takeWhile_all_append (p : Char → Bool) (l r : List Char)
    (hl : l.all p = true) (hr : ∀ c, r.head? = some c → p c = false) :
    (l ++ r).takeWhile p = l ∧ (l ++ r).dropWhile p = r := by
  induction l with
  | nil =>
    cases r with
    | nil => simp
    | cons c r' =>
      have := hr c rfl
      simp [List.takeWhile, List.dropWhile, this]
  | cons a l' ih =>
    simp only [List.all_cons, Bool.and_eq_true] at hl
    have ⟨ht, hd⟩ := ih hl.2
    simp [List.takeWhile, List.dropWhile, hl.1, ht, hd]

theorem dropWhile_head_not (p : Char → Bool) (l : List Char) :
    ∀ c, (l.dropWhile p).head? = some c → p c = false := by
  induction l with
  | nil => intro c h; cases h
  | cons a l' ih =>
    intro c h
    by_cases hp : p a
    · rw [List.dropWhile_cons, if_pos hp] at h
      exact ih c h
    · rw [List.dropWhile_cons, if_neg hp] at h
      cases h
      exact Bool.of_not_eq_true hp

theorem takeWhile_all (p : Char → Bool) (l : List Char) :
    (l.takeWhile p).all p = true := by
  induction l with
  | nil => simp
  | cons a l' ih =>
    by_cases hp : p a
    · simp [List.takeWhile, hp, ih]
    · simp [List.takeWhile, hp]

theorem char_eq_of_toNat (c d : Char) (h : c.toNat = d.toNat) : c = d :=
  Char.ext (UInt32.ext h)

theorem digit_toNat_bounds (c : Char) (h : c.isDigit = true) :
    48 ≤ c.toNat ∧ c.toNat ≤ 57 := by
  simp [Char.isDigit] at h
  exact h

theorem digitChar_of_digit (c : Char) (h : c.isDigit = true) :
    Nat.digitChar (c.toNat - 48) = c := by
  obtain ⟨h1, h2⟩ := digit_toNat_bounds c h
  set k := c.toNat - 48 with hk
  have hck : c.toNat = 48 + k := by omega
  have hk9 : k ≤ 9 := by omega
  interval_cases k <;> exact char_eq_of_toNat _ c (by rw [hck]; rfl)

theorem digitsToNat_cons_ge (t : List Char) (a : Nat) (ha : 1 ≤ a) :
    1 ≤ t.foldl (fun x c => x * 10 + (c.toNat - '0'.toNat)) a := by
  induction t generalizing a with
  | nil => simpa
  | cons c t' ih =>
    exact ih (a * 10 + (c.toNat - '0'.toNat)) (by omega)

theorem digitsToNat_ge_one (h0 : Char) (t : List Char)
    (hd : h0.isDigit = true) (hz : h0 ≠ '0') :
    1 ≤ digitsToNat (h0 :: t) := by
  obtain ⟨h1, h2⟩ := digit_toNat_bounds h0 hd
  have hne : h0.toNat ≠ 48 := by
    intro hcon
    exact hz (char_eq_of_toNat h0 '0' (by rw [hcon]; rfl))
  show 1 ≤ t.foldl (fun x c => x * 10 + (c.toNat - '0'.toNat)) (0 * 10 + (h0.toNat - '0'.toNat))
  exact digitsToNat_cons_ge t _ (by show 1 ≤ 0 * 10 + (h0.toNat - 48); omega)

theorem digit_toNat_lt (c : Char) (h : c.isDigit = true) : c.toNat - 48 < 10 := by
  obtain ⟨h1, h2⟩ := digit_toNat_bounds c h
  omega

/-- Inverse of `digitsToNat_natDigits`: a valid digit string (nonempty, all
digits, no leading zero) is recovered from its value. -/
theorem natDigits_digitsToNat (ds : List Char) (hne : ds ≠ [])
    (hd : ds.all Char.isDigit = true)
    (hz : ¬(ds.head? = some '0' ∧ 1 < ds.length)) :
    natDigits (digitsToNat ds) = ds := by
  induction ds using List.reverseRecOn with
  | nil => exact absurd rfl hne
  | append_singleton l c ihl =>
    have hcd : c.isDigit = true := by
      have := hd
      simp only [List.all_append, List.all_cons, List.all_nil, Bool.and_eq_true] at this
      exact this.2.1
    have hld : l.all Char.isDigit = true := by
      have := hd
      simp only [List.all_append, Bool.and_eq_true] at this
      exact this.1
    cases l with
    | nil =>
      simp only [List.nil_append]
      have hlt : digitsToNat [c] < 10 := by
        show 0 * 10 + (c.toNat - '0'.toNat) < 10
        have := digit_toNat_lt c hcd
        simp only [show '0'.toNat = 48 from rfl]
        omega
      rw [natDigits, dif_pos hlt]
      show [Nat.digitChar (0 * 10 + (c.toNat - '0'.toNat))] = [c]
      simp only [Nat.zero_mul, Nat.zero_add, show '0'.toNat = 48 from rfl,
        digitChar_of_digit c hcd]
    | cons h0 l' =>
      have hh0 : h0.isDigit = true := by
        simp only [List.all_cons, Bool.and_eq_true] at hld
        exact hld.1
      have hh0z : h0 ≠ '0' := by
        intro hcon
        subst hcon
        refine hz ⟨rfl, ?_⟩
        simp only [List.length_append, List.length_cons, List.length_nil]
        omega
      have hge : 1 ≤ digitsToNat (h0 :: l') := by
        apply digitsToNat_ge_one h0 l' hh0 hh0z
      have hrec := digitsToNat_append (h0 :: l') c
      have hclt := digit_toNat_lt c hcd
      have hge10 : 10 ≤ digitsToNat ((h0 :: l') ++ [c]) := by
        rw [hrec]; omega
      rw [natDigits, dif_neg (by omega)]
      have hdiv : digitsToNat ((h0 :: l') ++ [c]) / 10 = digitsToNat (h0 :: l') := by
        rw [hrec, show '0'.toNat = 48 from rfl]; omega
      have hmod : digitsToNat ((h0 :: l') ++ [c]) % 10 = c.toNat - 48 := by
        rw [hrec, show '0'.toNat = 48 from rfl]; omega
      rw [hdiv, hmod, digitChar_of_digit c hcd,
        ihl (by simp) hld (by simp; intro hcon; exact absurd hcon hh0z)]

theorem parseNumComp_of_valid (ds rest : List Char) (hne : ds ≠ [])
    (hdig : ds.all Char.isDigit = true)
    (hz : ¬(ds.head? = some '0' ∧ 1 < ds.length))
    (hr : ∀ c, rest.head? = some c → c.isDigit = false) :
    parseNumComp (ds ++ rest) = some (digitsToNat ds, rest) := by
  obtain ⟨ht, hd⟩ := takeWhile_all_append Char.isDigit ds rest hdig hr
  simp only [parseNumComp, ht, hd]
  rw [if_neg (by simpa using hne), if_neg (by simpa using hz)]

theorem parseNumComp_repr (n : Nat) (rest : List Char)
    (hr : ∀ c, rest.head? = some c → c.isDigit = false) :
    parseNumComp ((Nat.repr n).data ++ rest) = some (n, rest) := by
  have hz : ¬((Nat.repr n).data.head? = some '0' ∧ 1 < (Nat.repr n).data.length) := by
    rcases Nat.eq_zero_or_pos n with rfl | hpos
    · intro ⟨_, hlen⟩
      have : (Nat.repr 0).data = ['0'] := by decide
      rw [this] at hlen
      simp at hlen
    · intro ⟨hh, _⟩
      exact repr_head_ne_zero n (by omega) hh
  rw [parseNumComp_of_valid _ rest (repr_data_ne_nil n) (repr_all_digit n) hz hr,
    digitsToNat_repr]

theorem parseNumComp_sound (l : List Char) (n : Nat) (rest : List Char)
    (h : parseNumComp l = some (n, rest)) :
    l = (Nat.repr n).data ++ rest ∧ ∀ c, rest.head? = some c → c.isDigit = false := by
  simp only [parseNumComp] at h
  by_cases h1 : (l.takeWhile Char.isDigit).isEmpty
  · rw [if_pos h1] at h
    cases h
  · rw [if_neg h1] at h
    by_cases h2 : (l.takeWhile Char.isDigit).head? = some '0' ∧ 1 < (l.takeWhile Char.isDigit).length
    · rw [if_pos (by simpa using h2)] at h
      cases h
    · rw [if_neg (by simpa using h2)] at h
      simp only [Option.some.injEq, Prod.mk.injEq] at h
      obtain ⟨hn, hrest⟩ := h
      have htwd : (l.takeWhile Char.isDigit).all Char.isDigit = true := takeWhile_all _ l
      have htwne : l.takeWhile Char.isDigit ≠ [] := by
        simpa using h1
      have hrepr : (Nat.repr n).data = l.takeWhile Char.isDigit := by
        rw [← hn, repr_data]
        exact natDigits_digitsToNat _ htwne htwd h2
      constructor
      · rw [hrepr, ← hrest]
        exact (List.takeWhile_append_dropWhile Char.isDigit l).symm
      · rw [← hrest]
        exact dropWhile_head_not Char.isDigit l

-- ==================== prerelease identifier well-formedness ====================

/-- A prerelease identifier the `semver` grammar can produce: a string
identifier consists of `[0-9A-Za-z-]` characters and is not all digits
(otherwise it would have been classified numeric). -/
def preIdWF : PreId → Prop
  | .num _ => True
  | .str s => s.all isIdChar = true ∧ s.all Char.isDigit = false

/-- Well-formedness of a parsed `SemVer`: every prerelease identifier is
well-formed. -/
def svWF (v : SemVer) : Prop :=
  ∀ id ∈ v.prerelease, preIdWF id

theorem parsePreIdent_roundtrip (id : PreId) (h : preIdWF id) :
    parsePreIdent (preIdChars id) = some id := by
  cases id with
  | num n =>
    have hz : ¬((Nat.repr n).data.head? = some '0' ∧ 1 < (Nat.repr n).data.length) := by
      rcases Nat.eq_zero_or_pos n with rfl | hpos
      · intro ⟨_, hlen⟩
        have : (Nat.repr 0).data = ['0'] := by decide
        rw [this] at hlen
        simp at hlen
      · intro ⟨hh, _⟩
        exact repr_head_ne_zero n (by omega) hh
    simp only [parsePreIdent, preIdChars]
    rw [if_neg (by simpa using repr_data_ne_nil n), if_pos (repr_all_digit n),
      if_neg (by simpa using hz), digitsToNat_repr]
  | str s =>
    obtain ⟨hid, hnd⟩ := h
    have hne : s ≠ [] := by
      intro hcon
      rw [hcon] at hnd
      simp at hnd
    simp only [parsePreIdent, preIdChars]
    rw [if_neg (by simpa using hne), if_neg (by simp [hnd]), if_pos hid]

theorem parsePreIdent_sound (g : List Char) (id : PreId)
    (h : parsePreIdent g = some id) : preIdChars id = g ∧ preIdWF id := by
  simp only [parsePreIdent] at h
  by_cases h0 : g.isEmpty
  · rw [if_pos h0] at h
    cases h
  · rw [if_neg h0] at h
    by_cases h1 : g.all Char.isDigit
    · rw [if_pos h1] at h
      by_cases h2 : g.head? = some '0' ∧ 1 < g.length
      · rw [if_pos (by simpa using h2)] at h
        cases h
      · rw [if_neg (by simpa using h2)] at h
        simp only [Option.some.injEq] at h
        subst h
        refine ⟨?_, trivial⟩
        simp only [preIdChars]
        rw [repr_data]
        exact natDigits_digitsToNat g (by simpa using h0) h1 h2
    · rw [if_neg h1] at h
      by_cases h3 : g.all isIdChar
      · rw [if_pos h3] at h
        simp only [Option.some.injEq] at h
        subst h
        exact ⟨rfl, h3, by simpa using h1⟩
      · rw [if_neg h3] at h
        cases h

theorem digit_isIdChar (c : Char) (h : c.isDigit = true) : isIdChar c = true := by
  simp [isIdChar, h]

theorem preIdChars_all_idChar (id : PreId) (h : preIdWF id) :
    (preIdChars id).all isIdChar = true := by
  cases id with
  | num n =>
    simp only [preIdChars]
    have := repr_all_digit n
    simp only [List.all_eq_true] at this ⊢
    exact fun c hc => digit_isIdChar c (this c hc)
  | str s => exact h.1

theorem idChar_ne_dot (c : Char) (h : isIdChar c = true) : c ≠ '.' := by
  intro hcon
  subst hcon
  simp [isIdChar, Char.isAlpha, Char.isUpper, Char.isLower, Char.isDigit] at h

theorem idChar_ne_plus (c : Char) (h : isIdChar c = true) : c ≠ '+' := by
  intro hcon
  subst hcon
  simp [isIdChar, Char.isAlpha, Char.isUpper, Char.isLower, Char.isDigit] at h

/-- `joinSep` is a left inverse of `splitOnC` unconditionally. -/
theorem joinSep_splitOnC (sep : Char) (l : List Char) :
    joinSep sep (splitOnC sep l) = l := by
  induction l with
  | nil => rfl
  | cons c rest ih =>
    simp only [splitOnC]
    cases hsp : splitOnC sep rest with
    | nil => exact absurd hsp (splitOnC_ne_nil sep rest)
    | cons g gs =>
      rw [hsp] at ih
      dsimp only
      by_cases hc : c = sep
      · subst hc
        rw [if_pos rfl]
        show [] ++ c :: joinSep c (g :: gs) = c :: rest
        rw [List.nil_append, ih]
      · rw [if_neg hc]
        cases gs with
        | nil =>
          show c :: g = c :: rest
          have hg : g = rest := ih
          rw [hg]
        | cons g2 gs2 =>
          show (c :: g) ++ sep :: joinSep sep (g2 :: gs2) = c :: rest
          have ih2 : g ++ sep :: joinSep sep (g2 :: gs2) = rest := ih
          rw [List.cons_append, ih2]

-- ==================== canonical-form round trip ====================

theorem head?_append_left {α : Type} (l r : List α) (hne : l ≠ []) :
    (l ++ r).head? = l.head? := by
  cases l with
  | nil => exact absurd rfl hne
  | cons a t => rfl

theorem expectDot_cons (r : List Char) : expectDot ('.' :: r) = some r := rfl

theorem parseAfterPatch_nil (ma mi pa : Nat) :
    parseAfterPatch ma mi pa [] = some ⟨ma, mi, pa, [], []⟩ := rfl

theorem parseAfterPatch_dash (ma mi pa : Nat) (r : List Char) :
    parseAfterPatch ma mi pa ('-' :: r) = parseTail ma mi pa r := rfl

theorem all_digit_head_ne_v (l : List Char) (hd : l.all Char.isDigit = true) :
    l.head? ≠ some 'v' := by
  cases l with
  | nil => simp
  | cons a t =>
    simp only [List.all_cons, Bool.and_eq_true] at hd
    intro hcon
    simp only [List.head?_cons, Option.some.injEq] at hcon
    subst hcon
    exact absurd hd.1 (by decide)

theorem joinSep_all (sep : Char) (p : Char → Bool) (hsep : p sep = true)
    (gs : List (List Char)) (h : ∀ g ∈ gs, g.all p = true) :
    (joinSep sep gs).all p = true := by
  induction gs with
  | nil => rfl
  | cons g gs ih =>
    cases gs with
    | nil => exact h g (by simp)
    | cons g2 gs2 =>
      show ((g ++ sep :: joinSep sep (g2 :: gs2)).all p) = true
      simp only [List.all_append, List.all_cons, Bool.and_eq_true]
      refine ⟨h g (by simp), hsep, ?_⟩
      exact ih (fun x hx => h x (List.mem_cons_of_mem _ hx))

theorem takeWhile_of_all (p : Char → Bool) (l : List Char) (h : l.all p = true) :
    l.takeWhile p = l ∧ l.dropWhile p = [] := by
  have := takeWhile_all_append p l [] h (by intro c hc; cases hc)
  simpa using this

theorem preGroups_sepfree (pres : List PreId) (h : ∀ id ∈ pres, preIdWF id) :
    ∀ g ∈ pres.map preIdChars, g.all (fun c => c ≠ '.') = true := by
  intro g hg
  obtain ⟨id, hid, rfl⟩ := List.mem_map.mp hg
  have hall := preIdChars_all_idChar id (h id hid)
  simp only [List.all_eq_true, decide_eq_true_eq] at hall ⊢
  exact fun c hc => idChar_ne_dot c (hall c hc)

theorem preGroups_roundtrip (pres : List PreId) (hne : pres ≠ [])
    (h : ∀ id ∈ pres, preIdWF id) :
    mapOpt parsePreIdent (splitOnC '.' (joinSep '.' (pres.map preIdChars))) = some pres := by
  rw [splitOnC_joinSep '.' (pres.map preIdChars) (by simpa using hne)
    (preGroups_sepfree pres h)]
  exact mapOpt_roundtrip parsePreIdent preIdChars pres
    (fun id hid => parsePreIdent_roundtrip id (h id hid))

theorem preJoin_no_plus (pres : List PreId) (h : ∀ id ∈ pres, preIdWF id) :
    (joinSep '.' (pres.map preIdChars)).all (fun c => c ≠ '+') = true := by
  apply joinSep_all '.' _ (by decide)
  intro g hg
  obtain ⟨id, hid, rfl⟩ := List.mem_map.mp hg
  have hall := preIdChars_all_idChar id (h id hid)
  simp only [List.all_eq_true, decide_eq_true_eq] at hall ⊢
  exact fun c hc => idChar_ne_plus c (hall c hc)

theorem parseTail_canonical (ma mi pa : Nat) (pres : List PreId) (hne : pres ≠ [])
    (h : ∀ id ∈ pres, preIdWF id) :
    parseTail ma mi pa (joinSep '.' (pres.map preIdChars)) = some ⟨ma, mi, pa, pres, []⟩ := by
  obtain ⟨htw, hdw⟩ :=
    takeWhile_of_all (fun c => c ≠ '+') (joinSep '.' (pres.map preIdChars))
      (preJoin_no_plus pres h)
  unfold parseTail
  rw [htw, hdw, preGroups_roundtrip pres hne h]

/-- Parsing the canonical string of a well-formed `SemVer` recovers it,
with the build metadata (which the canonical string omits) dropped. -/
theorem parseSemverCore_svChars (v : SemVer) (h : svWF v) :
    parseSemverCore (svChars v) = some { v with build := [] } := by
  cases hpre : v.prerelease with
  | nil =>
    have hsv : svChars v = (Nat.repr v.major).data ++ '.' ::
        ((Nat.repr v.minor).data ++ '.' :: ((Nat.repr v.patch).data ++ ([] : List Char))) := by
      rw [svChars, hpre]
      simp
    have h3 : parseNumComp ((Nat.repr v.patch).data ++ ([] : List Char)) =
        some (v.patch, []) :=
      parseNumComp_repr _ _ (by intro c hc; cases hc)
    have h2 : parseNumComp ((Nat.repr v.minor).data ++ '.' ::
        ((Nat.repr v.patch).data ++ ([] : List Char))) =
        some (v.minor, '.' :: ((Nat.repr v.patch).data ++ ([] : List Char))) :=
      parseNumComp_repr _ _ (by
        intro c hc
        simp only [List.head?_cons, Option.some.injEq] at hc
        subst hc
        decide)
    have h1 : parseNumComp (svChars v) = some (v.major, '.' ::
        ((Nat.repr v.minor).data ++ '.' :: ((Nat.repr v.patch).data ++ ([] : List Char)))) := by
      rw [hsv]
      exact parseNumComp_repr _ _ (by
        intro c hc
        simp only [List.head?_cons, Option.some.injEq] at hc
        subst hc
        decide)
    have hnev : ¬ (svChars v).head? = some 'v' := by
      rw [hsv, head?_append_left _ _ (repr_data_ne_nil v.major)]
      exact all_digit_head_ne_v _ (repr_all_digit v.major)
    unfold parseSemverCore
    rw [if_neg hnev, h1]
    dsimp only
    rw [expectDot_cons]
    dsimp only
    rw [h2]
    dsimp only
    rw [expectDot_cons]
    dsimp only
    rw [h3]
    dsimp only
    rw [parseAfterPatch_nil]
  | cons p ps =>
    have hwf : ∀ id ∈ (p :: ps), preIdWF id := by
      intro id hid
      exact h id (by rw [hpre]; exact hid)
    have hsv : svChars v = (Nat.repr v.major).data ++ '.' ::
        ((Nat.repr v.minor).data ++ '.' :: ((Nat.repr v.patch).data ++
          ('-' :: joinSep '.' ((p :: ps).map preIdChars)))) := by
      rw [svChars, hpre]
      simp
    have h3 : parseNumComp ((Nat.repr v.patch).data ++
        ('-' :: joinSep '.' ((p :: ps).map preIdChars))) =
        some (v.patch, '-' :: joinSep '.' ((p :: ps).map preIdChars)) :=
      parseNumComp_repr _ _ (by
        intro c hc
        simp only [List.head?_cons, Option.some.injEq] at hc
        subst hc
        decide)
    have h2 : parseNumComp ((Nat.repr v.minor).data ++ '.' ::
        ((Nat.repr v.patch).data ++ ('-' :: joinSep '.' ((p :: ps).map preIdChars)))) =
        some (v.minor, '.' :: ((Nat.repr v.patch).data ++
          ('-' :: joinSep '.' ((p :: ps).map preIdChars)))) :=
      parseNumComp_repr _ _ (by
        intro c hc
        simp only [List.head?_cons, Option.some.injEq] at hc
        subst hc
        decide)
    have h1 : parseNumComp (svChars v) = some (v.major, '.' ::
        ((Nat.repr v.minor).data ++ '.' :: ((Nat.repr v.patch).data ++
          ('-' :: joinSep '.' ((p :: ps).map preIdChars))))) := by
      rw [hsv]
      exact parseNumComp_repr _ _ (by
        intro c hc
        simp only [List.head?_cons, Option.some.injEq] at hc
        subst hc
        decide)
    have hnev : ¬ (svChars v).head? = some 'v' := by
      rw [hsv, head?_append_left _ _ (repr_data_ne_nil v.major)]
      exact all_digit_head_ne_v _ (repr_all_digit v.major)
    unfold parseSemverCore
    rw [if_neg hnev, h1]
    dsimp only
    rw [expectDot_cons]
    dsimp only
    rw [h2]
    dsimp only
    rw [expectDot_cons]
    dsimp only
    rw [h3]
    dsimp only
    rw [parseAfterPatch_dash, parseTail_canonical v.major v.minor v.patch (p :: ps)
      (by simp) hwf]

-- ==================== soundness of the grammar parser ====================

theorem expectDot_sound (l r : List Char) (h : expectDot l = some r) : l = '.' :: r := by
  unfold expectDot at h
  split at h
  · cases h
    rfl
  · cases h

theorem parseTail_sound (ma mi pa : Nat) (l : List Char) (v : SemVer)
    (h : parseTail ma mi pa l = some v) :
    v.major = ma ∧ v.minor = mi ∧ v.patch = pa ∧ v.prerelease ≠ [] ∧
    (∀ id ∈ v.prerelease, preIdWF id) ∧
    ∃ tl, l = joinSep '.' (v.prerelease.map preIdChars) ++ tl ∧
      (tl = [] ∨ ∃ bs, tl = '+' :: bs) := by
  unfold parseTail at h
  cases hm : mapOpt parsePreIdent (splitOnC '.' (l.takeWhile (fun c => c ≠ '+'))) with
  | none => rw [hm] at h; cases h
  | some pres =>
    rw [hm] at h
    have hgroups : splitOnC '.' (l.takeWhile (fun c => c ≠ '+')) = pres.map preIdChars :=
      mapOpt_eq_map parsePreIdent preIdChars _ pres hm
        (fun a b hab => (parsePreIdent_sound a b hab).1.symm)
    have hWFpres : ∀ id ∈ pres, preIdWF id := by
      intro id hid
      obtain ⟨g, _, hg⟩ := mapOpt_mem parsePreIdent _ pres hm id hid
      exact (parsePreIdent_sound g id hg).2
    have hpresne : pres ≠ [] := by
      intro hcon
      rw [hcon] at hgroups
      exact splitOnC_ne_nil '.' _ (by simpa using hgroups)
    have hpre : l.takeWhile (fun c => c ≠ '+') = joinSep '.' (pres.map preIdChars) := by
      rw [← hgroups, joinSep_splitOnC]
    have hsplit : l = joinSep '.' (pres.map preIdChars) ++ l.dropWhile (fun c => c ≠ '+') := by
      rw [← hpre, List.takeWhile_append_dropWhile]
    cases hd : l.dropWhile (fun c => c ≠ '+') with
    | nil =>
      rw [hd] at h
      cases h
      refine ⟨rfl, rfl, rfl, hpresne, hWFpres, [], ?_, Or.inl rfl⟩
      rw [← hd]
      exact hsplit
    | cons c bs =>
      rw [hd] at h
      dsimp only at h
      have hc : c = '+' := by
        have := dropWhile_head_not (fun c => c ≠ '+') l c (by rw [hd]; rfl)
        simpa using this
      cases hb : mapOpt parseBuildIdent (splitOnC '.' bs) with
      | none => rw [hb] at h; cases h
      | some bld =>
        rw [hb] at h
        cases h
        refine ⟨rfl, rfl, rfl, hpresne, hWFpres, c :: bs, ?_, Or.inr ⟨bs, by rw [hc]⟩⟩
        rw [← hd]
        exact hsplit

theorem parseAfterPatch_sound (ma mi pa : Nat) (r5 : List Char) (v : SemVer)
    (h : parseAfterPatch ma mi pa r5 = some v) :
    v.major = ma ∧ v.minor = mi ∧ v.patch = pa ∧ (∀ id ∈ v.prerelease, preIdWF id) ∧
    ∃ tl, r5 = (if v.prerelease.isEmpty then ([] : List Char)
        else '-' :: joinSep '.' (v.prerelease.map preIdChars)) ++ tl ∧
      (tl = [] ∨ ∃ bs, tl = '+' :: bs) := by
  unfold parseAfterPatch at h
  split at h
  · -- r5 = []
    cases h
    exact ⟨rfl, rfl, rfl, by simp, [], by simp, Or.inl rfl⟩
  · -- r5 = '-' :: r6
    rename_i r6
    obtain ⟨h1, h2, h3, hne, hWF, tl, heq, htl⟩ := parseTail_sound ma mi pa r6 v h
    refine ⟨h1, h2, h3, hWF, tl, ?_, htl⟩
    rw [if_neg (by simpa using hne), heq]
    rfl
  · -- r5 = '+' :: r6
    rename_i r6
    split at h
    · rename_i bld hbld
      cases h
      exact ⟨rfl, rfl, rfl, by simp, '+' :: r6, by simp, Or.inr ⟨r6, rfl⟩⟩
    · cases h
  · cases h

/-- Soundness of the grammar: a successful parse decomposes the input as an
optional `v`, the canonical characters of the result, and an optional
`+build` suffix. -/
theorem parseSemverCore_sound (l : List Char) (v : SemVer)
    (h : parseSemverCore l = some v) :
    svWF v ∧ ∃ hd tl, l = hd ++ svChars v ++ tl ∧ (hd = [] ∨ hd = ['v']) ∧
      (tl = [] ∨ ∃ bs, tl = '+' :: bs) := by
  unfold parseSemverCore at h
  cases h1 : parseNumComp (if l.head? = some 'v' then l.tail else l) with
  | none => rw [h1] at h; cases h
  | some p1 =>
    obtain ⟨ma, r1⟩ := p1
    rw [h1] at h
    dsimp only at h
    cases he1 : expectDot r1 with
    | none => rw [he1] at h; cases h
    | some r2 =>
      rw [he1] at h
      dsimp only at h
      cases h2 : parseNumComp r2 with
      | none => rw [h2] at h; cases h
      | some p2 =>
        obtain ⟨mi, r3⟩ := p2
        rw [h2] at h
        dsimp only at h
        cases he2 : expectDot r3 with
        | none => rw [he2] at h; cases h
        | some r4 =>
          rw [he2] at h
          dsimp only at h
          cases h3 : parseNumComp r4 with
          | none => rw [h3] at h; cases h
          | some p3 =>
            obtain ⟨pa, r5⟩ := p3
            rw [h3] at h
            dsimp only at h
            obtain ⟨hva, hvi, hvp, hWF, tl, htl, htlshape⟩ :=
              parseAfterPatch_sound ma mi pa r5 v h
            have hd1 := (parseNumComp_sound _ _ _ h1).1
            have hd2 := (parseNumComp_sound _ _ _ h2).1
            have hd3 := (parseNumComp_sound _ _ _ h3).1
            have hr1 : r1 = '.' :: r2 := expectDot_sound r1 r2 he1
            have hr3 : r3 = '.' :: r4 := expectDot_sound r3 r4 he2
            have hbody : (if l.head? = some 'v' then l.tail else l) = svChars v ++ tl := by
              rw [hd1, hr1, hd2, hr3, hd3, htl, svChars, hva, hvi, hvp]
              simp [List.append_assoc]
            refine ⟨hWF, ?_⟩
            by_cases hv : l.head? = some 'v'
            · refine ⟨['v'], tl, ?_, Or.inr rfl, htlshape⟩
              rw [if_pos hv] at hbody
              cases l with
              | nil => cases hv
              | cons c t =>
                simp only [List.head?_cons, Option.some.injEq] at hv
                subst hv
                simp only [List.tail_cons] at hbody
                rw [hbody]
                rfl
            · refine ⟨[], tl, ?_, Or.inl rfl, htlshape⟩
              rw [if_neg hv] at hbody
              rw [hbody]
              rfl

-- ==================== character sets, trimming, and the parse wrapper ====================

theorem not_ws_of_toNat_ge (c : Char) (h : 33 ≤ c.toNat) : c.isWhitespace = false := by
  simp only [Char.isWhitespace, Bool.or_eq_false_iff, decide_eq_false_iff_not]
  refine ⟨⟨⟨?_, ?_⟩, ?_⟩, ?_⟩ <;> intro hcon <;> subst hcon <;> simp at h

theorem alpha_toNat_ge (c : Char) (h : c.isAlpha = true) : 65 ≤ c.toNat := by
  simp only [Char.isAlpha, Char.isUpper, Char.isLower, Bool.or_eq_true, Bool.and_eq_true,
    decide_eq_true_eq] at h
  rcases h with ⟨h1, _⟩ | ⟨h1, _⟩ <;> exact le_trans (by norm_num) h1

theorem idChar_toNat_ge (c : Char) (h : isIdChar c = true) : 33 ≤ c.toNat := by
  simp only [isIdChar, Bool.or_eq_true, decide_eq_true_eq] at h
  rcases h with (hd | ha) | he
  · have := digit_toNat_bounds c hd
    omega
  · have := alpha_toNat_ge c ha
    omega
  · subst he
    decide

theorem svChars_ge33 (v : SemVer) (h : svWF v) :
    (svChars v).all (fun c => 33 ≤ c.toNat) = true := by
  have hdig : ∀ (n : Nat), (Nat.repr n).data.all (fun c => 33 ≤ c.toNat) = true := by
    intro n
    have := repr_all_digit n
    simp only [List.all_eq_true, decide_eq_true_eq] at this ⊢
    intro c hc
    have := digit_toNat_bounds c (this c hc)
    omega
  unfold svChars
  simp only [List.all_append, List.all_cons, Bool.and_eq_true]
  refine ⟨⟨⟨hdig v.major, by decide, hdig v.minor⟩, by decide, hdig v.patch⟩, ?_⟩
  by_cases hp : v.prerelease.isEmpty
  · simp [hp]
  · rw [if_neg hp]
    simp only [List.all_cons, Bool.and_eq_true]
    refine ⟨by decide, ?_⟩
    apply joinSep_all '.' _ (by decide)
    intro g hg
    obtain ⟨id, hid, rfl⟩ := List.mem_map.mp hg
    have hall := preIdChars_all_idChar id (h id hid)
    simp only [List.all_eq_true, decide_eq_true_eq] at hall ⊢
    intro c hc
    exact idChar_toNat_ge c (hall c hc)

theorem dropWhile_length_le (p : Char → Bool) (l : List Char) :
    (l.dropWhile p).length ≤ l.length := by
  induction l with
  | nil => simp
  | cons a t ih =>
    rw [List.dropWhile_cons]
    by_cases hp : p a
    · simp only [if_pos hp, List.length_cons]
      omega
    · simp [if_neg hp]

theorem dropWhile_all_false (p : Char → Bool) (l : List Char)
    (h : ∀ c ∈ l, p c = false) : l.dropWhile p = l := by
  cases l with
  | nil => rfl
  | cons a t =>
    rw [List.dropWhile_cons, if_neg]
    simp [h a (by simp)]

theorem trimChars_of_no_ws (l : List Char) (h : ∀ c ∈ l, c.isWhitespace = false) :
    trimChars l = l := by
  unfold trimChars
  rw [dropWhile_all_false _ _ h,
    dropWhile_all_false _ _ (fun c hc => h c (List.mem_reverse.mp hc)), List.reverse_reverse]

/-- Parsing the canonical string form of a well-formed, not-too-long `SemVer`
through the full `semver.parse` embedding recovers it (modulo the build
metadata that the canonical string omits). -/
theorem semverParse_canonical (v : SemVer) (h : svWF v)
    (hlen : (svChars v).length ≤ 256) :
    semverParse (svToString v) = some { v with build := [] } := by
  unfold semverParse svToString
  have hdata : (String.mk (svChars v)).data = svChars v := rfl
  rw [hdata, if_neg (by omega), trimChars_of_no_ws _ (by
    have := svChars_ge33 v h
    simp only [List.all_eq_true, decide_eq_true_eq] at this
    exact fun c hc => not_ws_of_toNat_ge c (this c hc)),
    parseSemverCore_svChars v h]

theorem svChars_length_le (l : List Char) (v : SemVer)
    (h : parseSemverCore l = some v) : (svChars v).length ≤ l.length := by
  obtain ⟨_, hd, tl, heq, _, _⟩ := parseSemverCore_sound l v h
  rw [heq]
  simp only [List.length_append]
  omega

/-- A successful `semver.parse` yields a well-formed result whose canonical
string fits the 256-character bound. -/
theorem semverParse_sound (s : String) (v : SemVer) (h : semverParse s = some v) :
    svWF v ∧ (svChars v).length ≤ 256 := by
  unfold semverParse at h
  by_cases hl : 256 < s.data.length
  · rw [if_pos hl] at h
    cases h
  · rw [if_neg hl] at h
    refine ⟨(parseSemverCore_sound _ v h).1, ?_⟩
    have h1 := svChars_length_le _ v h
    have h2 : (trimChars s.data).length ≤ s.data.length := by
      unfold trimChars
      calc ((s.data.dropWhile Char.isWhitespace).reverse.dropWhile Char.isWhitespace).reverse.length
          = ((s.data.dropWhile Char.isWhitespace).reverse.dropWhile Char.isWhitespace).length := by
            rw [List.length_reverse]
        _ ≤ (s.data.dropWhile Char.isWhitespace).reverse.length := dropWhile_length_le _ _
        _ = (s.data.dropWhile Char.isWhitespace).length := by rw [List.length_reverse]
        _ ≤ s.data.length := dropWhile_length_le _ _
    omega

-- ==================== version prefix handling (src/src/core.ts and legacy utils) ====================

/-- `SUPPORTED_PREFIXES` of the current `utils/constants` (src/src/core.ts):
ordered longest-first, "to avoid a short prefix shadowing a longer one". -/
def SUPPORTED_PREFIXES : List String := ["version-", "ver-", "rel-", "v"]

/-- `VERSION_PREFIX_CONFIG.supported` of the legacy `constants.ts`
(src/src/constants.ts): `v` listed first. -/
def SUPPORTED_PREFIXES_LEGACY : List String := ["v", "version-", "ver-", "rel-"]

/-- First prefix in the list that the string starts with (the lookup loop of
`versionParse` in src/src/core.ts). -/
def findPref : List String → String → Option String
  | [], _ => none
  | p :: ps, s => if strStarts p.data s.data then some p else findPref ps s

/-- Embedding of `VersionParseResult` (src/src/core.ts). The source field
names `prefix`, `hasPrefix` and `hasCurrentPrefix` are shortened to `pref`,
`hasPref`, `hasCurrentPref`. -/
structure VersionParseResult where
  original : String
  pkgVersion : String
  targetVersion : String
  pref : String
  hasPref : Bool
  hasCurrentPref : Bool
deriving DecidableEq, Repr

/-- Embedding of `versionParse` (src/src/core.ts), parameterized by the
configured current prefix `cur` (`VERSION_PREFIX_CONFIG.CURRENT`). The
memoization cache of the source is semantically transparent and not
modelled. -/
def versionParse (cur : String) (version : String) : VersionParseResult :=
  match findPref SUPPORTED_PREFIXES version with
  | some p =>
      { original := version
        pkgVersion := String.mk (version.data.drop p.data.length)
        targetVersion := cur ++ String.mk (version.data.drop p.data.length)
        pref := cur
        hasPref := true
        hasCurrentPref := p = cur }
  | none =>
      { original := version
        pkgVersion := version
        targetVersion := cur ++ version
        pref := cur
        hasPref := false
        hasCurrentPref := ("" : String) = cur }

/-- `cleanVersion` of the current utils (src/src/core.ts). -/
def cleanVersion (cur : String) (version : String) : String :=
  (versionParse cur version).pkgVersion

/-- `addVersionPrefix` of the current utils (src/src/core.ts); the source
name ends in a word this development avoids in identifiers. -/
def addVersionPref (cur : String) (version : String) : String :=
  (versionParse cur version).targetVersion

/-- `normalizeVersion` of the current utils (src/src/core.ts). -/
def normalizeVersion (cur : String) (version : String) : String :=
  (versionParse cur version).targetVersion

/-- The compatibility loop of the legacy `cleanVersion` (src/unnamed/part_008):
walk `VERSION_PREFIX_CONFIG.supported`, skipping the current prefix. -/
def cleanVersionLegacyLoop (cur : String) : List String → String → String
  | [], s => s
  | p :: ps, s =>
    if p = cur then cleanVersionLegacyLoop cur ps s
    else if strStarts p.data s.data then String.mk (s.data.drop p.data.length)
    else cleanVersionLegacyLoop cur ps s

/-- Embedding of the legacy `cleanVersion` (src/unnamed/part_008): the
configured current prefix is tried first, then the other supported
prefixes in declaration order. -/
def cleanVersionLegacy (cur : String) (version : String) : String :=
  if strStarts cur.data version.data then String.mk (version.data.drop cur.data.length)
  else cleanVersionLegacyLoop cur SUPPORTED_PREFIXES_LEGACY version

example : cleanVersion "v" "version-1.2.3" = "1.2.3" := by decide
example : cleanVersionLegacy "v" "version-1.2.3" = "ersion-1.2.3" := by decide
example : cleanVersionLegacy "version-" "version-1.2.3" = "1.2.3" := by decide
example : normalizeVersion "v" "rel-1.2.3" = "v1.2.3" := by decide

-- ==================== semver compare and inc (npm `semver` library) ====================

/-- JavaScript `<` on strings: lexicographic by code unit. -/
def strLtJS : List Char → List Char → Bool
  | [], [] => false
  | [], _ :: _ => true
  | _ :: _, [] => false
  | a :: as, b :: bs =>
    if a.toNat < b.toNat then true
    else if b.toNat < a.toNat then false
    else strLtJS as bs

/-- `compareIdentifiers` of the semver library: numeric identifiers sort
below alphanumeric ones; numbers numerically, strings by JS comparison. -/
def cmpIdent : PreId → PreId → Ordering
  | .num a, .num b => if a < b then .lt else if b < a then .gt else .eq
  | .num _, .str _ => .lt
  | .str _, .num _ => .gt
  | .str a, .str b => if strLtJS a b then .lt else if strLtJS b a then .gt else .eq

/-- Pairwise prerelease comparison loop (`comparePre` of semver): a missing
identifier sorts below a present one. -/
def cmpPreLoop : List PreId → List PreId → Ordering
  | [], [] => .eq
  | [], _ :: _ => .lt
  | _ :: _, [] => .gt
  | a :: as, b :: bs =>
    match cmpIdent a b with
    | .eq => cmpPreLoop as bs
    | o => o

/-- `comparePre`: a version with a prerelease sorts below the same base
without one. -/
def cmpPre (a b : List PreId) : Ordering :=
  match a, b with
  | [], [] => .eq
  | _ :: _, [] => .lt
  | [], _ :: _ => .gt
  | a, b => cmpPreLoop a b

/-- `SemVer.compare`: main components first, then prerelease. -/
def svCompare (a b : SemVer) : Ordering :=
  if a.major < b.major then .lt else if b.major < a.major then .gt
  else if a.minor < b.minor then .lt else if b.minor < a.minor then .gt
  else if a.patch < b.patch then .lt else if b.patch < a.patch then .gt
  else cmpPre a.prerelease b.prerelease

/-- Embedding of `semver.gt(a, b)`: both arguments are parsed and an invalid
one throws (`none` here). -/
def gtStr (a b : String) : Option Bool :=
  match semverParse a, semverParse b with
  | some x, some y => some (svCompare x y = Ordering.gt)
  | _, _ => none

/-- `SemVer.inc('major')`. -/
def incMajor (v : SemVer) : SemVer :=
  { v with
    major := if v.minor ≠ 0 || v.patch ≠ 0 || v.prerelease.isEmpty then v.major + 1 else v.major
    minor := 0
    patch := 0
    prerelease := [] }

/-- `SemVer.inc('minor')`. -/
def incMinor (v : SemVer) : SemVer :=
  { v with
    minor := if v.patch ≠ 0 || v.prerelease.isEmpty then v.minor + 1 else v.minor
    patch := 0
    prerelease := [] }

/-- `SemVer.inc('patch')`. -/
def incPatch (v : SemVer) : SemVer :=
  { v with
    patch := if v.prerelease.isEmpty then v.patch + 1 else v.patch
    prerelease := [] }

/-- Increment the last numeric identifier, `none` when there is none
(the descending scan of `SemVer.inc('pre')`). -/
def incLastNum : List PreId → Option (List PreId)
  | [] => none
  | a :: as =>
    match incLastNum as with
    | some as' => some (a :: as')
    | none =>
      match a with
      | .num n => some (.num (n + 1) :: as)
      | .str _ => none

/-- JavaScript `isNaN(prerelease[1])`: `undefined` and any parsed string
identifier are NaN, numbers are not. -/
def isNaNAt1 (pre : List PreId) : Bool :=
  match pre.get? 1 with
  | some (.num _) => false
  | some (.str _) => true
  | none => true

/-- `SemVer.inc('prerelease', identifier)` with the default identifier base
(`0`): bump the patch first when the version is a release, then run the
`'pre'` step. -/
def incPrerelease (id : String) (v : SemVer) : SemVer :=
  let v1 := if v.prerelease.isEmpty then incPatch v else v
  let pre1 :=
    if v1.prerelease.isEmpty then [PreId.num 0]
    else
      match incLastNum v1.prerelease with
      | some p => p
      | none => v1.prerelease ++ [PreId.num 0]
  let pre2 :=
    match pre1.head? with
    | some (.str s) =>
      if s = id.data then (if isNaNAt1 pre1 then [PreId.str id.data, PreId.num 0] else pre1)
      else [PreId.str id.data, PreId.num 0]
    | _ => [PreId.str id.data, PreId.num 0]
  { v1 with prerelease := pre2 }

/-- The three bump kinds the strategies derive from their labels. -/
inductive BumpKind where
  | major
  | minor
  | patch
deriving DecidableEq, Repr

def incBase : BumpKind → SemVer → SemVer
  | .major => incMajor
  | .minor => incMinor
  | .patch => incPatch

/-- `semver.inc(version, 'major'|'minor'|'patch')` at the string level:
`null` when the version does not parse. -/
def semverIncBase (s : String) (k : BumpKind) : Option String :=
  (semverParse s).map (fun v => svToString (incBase k v))

/-- `semver.inc(version, 'prerelease', identifier)` at the string level. -/
def semverIncPrerelease (s : String) (id : String) : Option String :=
  (semverParse s).map (fun v => svToString (incPrerelease id v))

example : semverIncBase "1.0.0" BumpKind.major = some "2.0.0" := by decide
example : semverIncBase "1.0.0" BumpKind.minor = some "1.1.0" := by decide
example : semverIncBase "2.0.0-beta.1" BumpKind.major = some "2.0.0" := by decide
example : semverIncPrerelease "1.1.0-alpha.2" "alpha" = some "1.1.0-alpha.3" := by decide
example : semverIncPrerelease "1.1.0-beta.2" "beta" = some "1.1.0-beta.3" := by decide
example : semverIncPrerelease "1.2.3" "beta" = some "1.2.4-beta.0" := by decide
example : semverIncPrerelease "1.1.0-alpha" "alpha" = some "1.1.0-alpha.0" := by decide
example : semverIncPrerelease "1.1.0-alpha.2" "beta" = some "1.1.0-beta.0" := by decide
example : gtStr "1.1.0" "1.0.9" = some true := by decide
example : gtStr "1.0.0" "1.0.0-beta.3" = some true := by decide

-- ==================== version.ts embedding (src/src/github/pr/index.ts, second document) ====================

/-- The prerelease-flavoured release types `getReleaseTypeFromLabels`
returns. -/
inductive ReleaseType where
  | premajor
  | preminor
  | prepatch
deriving DecidableEq, Repr

/-- Embedding of `getReleaseTypeFromLabels`: PR label names are checked for
`major`, then `minor`, then `patch`. -/
def getReleaseTypeFromLabels (labelNames : List String) : Option ReleaseType :=
  if labelNames.contains "major" then some .premajor
  else if labelNames.contains "minor" then some .preminor
  else if labelNames.contains "patch" then some .prepatch
  else none

/-- The `releaseTypeMapping` of `calculateAlphaVersion`. -/
def mapBump : ReleaseType → BumpKind
  | .premajor => .major
  | .preminor => .minor
  | .prepatch => .patch

/-- The malformed-prerelease repair of `parseVersion`: the regex replace
of pattern `-0-(alpha|beta)\.` by `-$1.`, i.e. the leftmost occurrence of
`-0-alpha.` or `-0-beta.` collapses, scanning left to right (a non-global
JavaScript replace rewrites only the first match). -/
def repairPre : List Char → List Char
  | [] => []
  | c :: rest =>
    if strStarts ("-0-alpha.".data) (c :: rest) then
      ("-alpha.".data) ++ (c :: rest).drop 9
    else if strStarts ("-0-beta.".data) (c :: rest) then
      ("-beta.".data) ++ (c :: rest).drop 8
    else c :: repairPre rest

/-- Embedding of `parseVersion`: clean the prefix, repair the malformed
prerelease pattern, then `semver.parse`. -/
def parseVersion (cur : String) (version : String) : Option SemVer :=
  semverParse (String.mk (repairPre (cleanVersion cur version).data))

/-- The base-version string `${major}.${minor}.${patch}`. -/
def baseStr (ma mi pa : Nat) : String :=
  Nat.repr ma ++ "." ++ Nat.repr mi ++ "." ++ Nat.repr pa

/-- Embedding of `getBaseVersionString`: `0.0.0` when parsing fails. -/
def getBaseVersionString (cur : String) (version : String) : String :=
  match parseVersion cur version with
  | none => "0.0.0"
  | some p => baseStr p.major p.minor p.patch

example : parseVersion "v" "1.0.0-0-beta.0" =
    some ⟨1, 0, 0, [.str "beta".data, .num 0], []⟩ := by decide
example : parseVersion "v" "v1.1.0-beta.2" =
    some ⟨1, 1, 0, [.str "beta".data, .num 2], []⟩ := by decide
example : getBaseVersionString "v" "1.1.0-beta.3" = "1.1.0" := by decide
example : getBaseVersionString "v" "garbage" = "0.0.0" := by decide

-- ==================== VersionManager (tag inventory) embedding ====================

/-- `parseMainVersion`: the newest tag without a `-`, normalized. -/
def parseMainVersion (cur : String) (tags : List String) : Option String :=
  (tags.find? (fun t => !(containsSub ("-".data) t.data))).map (normalizeVersion cur)

/-- `parseBranchVersion`: the newest tag containing `-<suffix>.`,
normalized. -/
def parseBranchVersion (cur : String) (tags : List String) (sfx : String) : Option String :=
  (tags.find? (fun t => containsSub ("-" ++ sfx ++ ".").data t.data)).map (normalizeVersion cur)

/-- The `cache[branch] || null` read of `getLatestVersion`: an empty string
is falsy. -/
def orNullStr : Option String → Option String
  | some s => if s = "" then none else some s
  | none => none

/-- `getLatestVersion('main')` after `initialize()` on the given tag list
(newest first). -/
def getLatestMain (cur : String) (tags : List String) : Option String :=
  orNullStr (parseMainVersion cur tags)

/-- `getLatestVersion('beta')` respectively `getLatestVersion('alpha')`. -/
def getLatestBranch (cur : String) (tags : List String) (sfx : String) : Option String :=
  orNullStr (parseBranchVersion cur tags sfx)

/-- `getLatestTag`: the newest tag overall. -/
def getLatestTag (tags : List String) : Option String :=
  tags.head?

/-- Embedding of `getTagType` (the tag classifier): `-alpha.` wins over
`-beta.`; a tag without `-` is a release; anything else is unknown. The
`!tag` falsy guard is the empty string. -/
def getTagType (tag : String) : String :=
  if tag = "" then "unknown"
  else if containsSub ("-alpha.".data) tag.data then "alpha"
  else if containsSub ("-beta.".data) tag.data then "beta"
  else if !(containsSub ("-".data) tag.data) then "release"
  else "unknown"

example : getTagType "v1.2.3" = "release" := by decide
example : getTagType "v1.2.3-beta.0" = "beta" := by decide
example : getTagType "v1.2.3-alpha.7" = "alpha" := by decide
example : getTagType "v1.2.3-rc.1" = "unknown" := by decide

-- ==================== branch state validation ====================

/-- The closed set of supported branches (`SupportedBranch`). -/
inductive SupportedBranch where
  | main
  | beta
  | alpha
deriving DecidableEq, Repr

/-- `branchValidationRules[branch].allowedTypes`. -/
def branchAllowedTypes : SupportedBranch → List String
  | .alpha => ["release", "alpha"]
  | .beta => ["alpha", "beta"]
  | .main => ["beta"]

/-- `branchValidationRules[branch].errorMsg`. -/
def branchErrorMsg : SupportedBranch → String
  | .alpha => "Alpha 分支只能在正式版本或 Alpha 版本后继续开发"
  | .beta => "Beta 分支只能在 Alpha 版本或 Beta 版本后继续开发"
  | .main => "Main 分支只能在 Beta 测试完成后发布"

/-- Embedding of `validateBranchVersionState`: with no tag at all every
branch passes; otherwise the newest tag's type must be in the branch's
allow-list, else the strategy run is aborted with an error naming the tag
and its type (`throwErrorWithComment` throws an `ActionError`). -/
def validateBranchVersionState (tags : List String) (targetBranch : SupportedBranch) :
    Except String Unit :=
  match getLatestTag tags with
  | none => .ok ()
  | some latestTag =>
    if (branchAllowedTypes targetBranch).contains (getTagType latestTag) then .ok ()
    else .error (branchErrorMsg targetBranch ++ "，当前最新版本: " ++ latestTag
      ++ " (" ++ getTagType latestTag ++ ")")

-- ==================== the three upgrade strategies and the manager ====================

/-- Embedding of `VersionUpgradeContext`. `pr` is reduced to the label-name
list of the pull request (`none` = no PR). -/
structure UpgradeContext where
  baseVersion : String
  targetBranch : SupportedBranch
  sourceBranch : String
  currentBranchType : String
  parsed : SemVer
  labels : Option (List String)
deriving Repr

/-- Embedding of `createUpgradeContext`: `null` when the base version does
not parse. (`prerelease[0] as string` prints a numeric identifier the way
JavaScript would coerce it.) -/
def createUpgradeContext (cur : String) (baseVersion : String)
    (targetBranch : SupportedBranch) (sourceBranch : String)
    (pr : Option (List String)) : Option UpgradeContext :=
  match parseVersion cur baseVersion with
  | none => none
  | some parsed =>
    some
      { baseVersion := cleanVersion cur baseVersion
        targetBranch := targetBranch
        sourceBranch := sourceBranch
        currentBranchType :=
          match parsed.prerelease.head? with
          | none => "release"
          | some (.str s) => String.mk s
          | some (.num n) => Nat.repr n
        parsed := parsed
        labels := pr }

/-- The `mainVersion ? getBaseVersionString(mainVersion) : '0.0.0'`
pattern applied to a cached branch version. -/
def cachedBaseOf (cur : String) : Option String → String
  | some v => getBaseVersionString cur v
  | none => "0.0.0"

/-- Embedding of `AlphaStrategy.calculateAlphaVersion`: derive a target base
from the main base and the label, then tie-break against the current alpha
base. `.error` stands for a thrown exception. -/
def calculateAlphaVersion (cur : String) (mainV alphaV : Option String)
    (baseVersion : String) (releaseType : ReleaseType) : Except String String :=
  match semverIncBase (cachedBaseOf cur mainV) (mapBump releaseType) with
  | none => .ok baseVersion
  | some targetBaseVersion =>
    if cachedBaseOf cur alphaV = cachedBaseOf cur mainV then
      .ok (targetBaseVersion ++ "-alpha.0")
    else
      match gtStr targetBaseVersion (cachedBaseOf cur alphaV) with
      | none => .error "Invalid Version"
      | some true => .ok (targetBaseVersion ++ "-alpha.0")
      | some false =>
        match alphaV with
        | none => .error "无法增加测试号：当前 Alpha 版本为空"
        | some av =>
          match semverIncPrerelease av "alpha" with
          | some s => .ok s
          | none => .ok av

/-- Embedding of `AlphaStrategy.execute`: no labels, or no recognized bump
label, yields `null` (no version change). -/
def alphaStrategyExecute (cur : String) (mainV alphaV : Option String)
    (ctx : UpgradeContext) : Except String (Option String) :=
  match ctx.labels with
  | none => .ok none
  | some ls =>
    if ls.isEmpty then .ok none
    else
      match getReleaseTypeFromLabels ls with
      | none => .ok none
      | some rt =>
        match calculateAlphaVersion cur mainV alphaV ctx.baseVersion rt with
        | .ok s => .ok (some s)
        | .error e => .error e

/-- Embedding of `BetaStrategy.execute`: from source `alpha`, restart the
beta counter on the alpha base; from any other source, increment the beta
counter of the base version. Labels are not consulted. -/
def betaStrategyExecute (cur : String) (ctx : UpgradeContext) : Option String :=
  if ctx.sourceBranch = "alpha" then
    some (getBaseVersionString cur ctx.baseVersion ++ "-beta.0")
  else
    match semverIncPrerelease ctx.baseVersion "beta" with
    | some s => some s
    | none => some ctx.baseVersion

/-- Embedding of `MainStrategy.execute`: the base version string of the
incoming (beta) version. -/
def mainStrategyExecute (cur : String) (ctx : UpgradeContext) : Option String :=
  some (getBaseVersionString cur ctx.baseVersion)

/-- Embedding of `VersionUpgradeManager.upgrade`: the strategy is selected
by exact target-branch match, branch-state validation runs first, and a
validation error prevents the strategy's `execute` from running. The
strategies read the `VersionManager` cache built from `tags`
(newest-first). -/
def upgradeManagerUpgrade (cur : String) (tags : List String) (ctx : UpgradeContext) :
    Except String (Option String) :=
  match validateBranchVersionState tags ctx.targetBranch with
  | .error e => .error e
  | .ok _ =>
    match ctx.targetBranch with
    | .alpha =>
      alphaStrategyExecute cur (getLatestMain cur tags) (getLatestBranch cur tags "alpha") ctx
    | .beta => .ok (betaStrategyExecute cur ctx)
    | .main => .ok (mainStrategyExecute cur ctx)

/-- Embedding of `calculateVersionUpgrade`: build the context (null base
version short-circuits to null) and prefix the strategy result. -/
def calculateVersionUpgrade (cur : String) (tags : List String) (baseVersion : String)
    (targetBranch : SupportedBranch) (sourceBranch : String)
    (pr : Option (List String)) : Except String (Option String) :=
  match createUpgradeContext cur baseVersion targetBranch sourceBranch pr with
  | none => .ok none
  | some ctx =>
    match upgradeManagerUpgrade cur tags ctx with
    | .error e => .error e
    | .ok none => .ok none
    | .ok (some nv) => .ok (some (addVersionPref cur nv))

-- ==================== git.ts embedding (src/src/git.ts) ====================

/-- Observable outcome of `handleNpmPublish` at its call site in
`updateVersionAndCreateTag`: returned `true`, returned `false` (non-strict
failure), or threw (strict mode / configuration error). -/
inductive NpmOutcome where
  | published
  | reportedFalse
  | threw (msg : String)
deriving DecidableEq, Repr

/-- Environment for the effectful git code: an oracle deciding which git
commands succeed, the GitHub event context, and the outcomes of the non-git
collaborators (package.json update, CHANGELOG state, npm publish). -/
structure GitEnv where
  gitOk : List String → Bool
  eventName : String
  headCommitMessage : String
  headSha : String
  pkgOk : Bool
  clExists : Bool
  clStatusNonempty : Bool
  npmOutcome : NpmOutcome

/-- The trace of git commands issued during a run. -/
abbrev Trace := List (List String)

/-- Embedding of `execGit`: run a git command; on failure
`handleGitError(..., shouldThrow = true)` throws an `ActionError`. The
issued command is appended to the trace. -/
def execGitT (env : GitEnv) (tr : Trace) (args : List String) : Trace × Except String Unit :=
  (tr ++ [args],
   if env.gitOk args then .ok () else .error ("执行 git " ++ String.intercalate " " args))

/-- `SupportedBranch` rendered as the branch name used in git commands. -/
def branchName : SupportedBranch → String
  | .main => "main"
  | .beta => "beta"
  | .alpha => "alpha"

/-- Embedding of `isAutoSyncCommit`: the head commit message carries a
sync marker. -/
def isAutoSyncCommit (env : GitEnv) : Bool :=
  containsSub ("[skip ci]".data) env.headCommitMessage.data
    || containsSub ("chore: sync".data) env.headCommitMessage.data
    || containsSub ("chore: bump version".data) env.headCommitMessage.data

/-- Embedding of `getCommitMessage` with the `COMMIT_TEMPLATES` of
src/src/constants.ts. -/
def getCommitMessage (src tgt ver : String) : String :=
  if src = "main" ∧ tgt = "beta" then "chore: sync main v" ++ ver ++ " to beta [skip ci]"
  else if src = "beta" ∧ tgt = "alpha" then "chore: sync beta v" ++ ver ++ " to alpha [skip ci]"
  else "chore: sync " ++ src ++ " v" ++ ver ++ " to " ++ tgt ++ " [skip ci]"

/-- Embedding of `BranchSyncResult`. -/
structure BranchSyncResult where
  success : Bool
  version : Option String
  conflicts : Option (List String)
  error : Option String
deriving DecidableEq, Repr

/-- Embedding of `resolveVersionConflicts`: abort, re-merge without commit,
rewrite `package.json` to the source version, commit. Any failure becomes
one wrapped error. -/
def resolveVersionConflicts (env : GitEnv) (tr : Trace) (src tgt ver : String) :
    Trace × Except String Unit :=
  match execGitT env tr ["merge", "--abort"] with
  | (tr1, .error e) => (tr1, .error ("手动解决版本冲突失败: " ++ e))
  | (tr1, .ok _) =>
    match execGitT env tr1 ["merge", src, "--no-commit", "--no-ff"] with
    | (tr2, .error e) => (tr2, .error ("手动解决版本冲突失败: " ++ e))
    | (tr2, .ok _) =>
      if !env.pkgOk then (tr2, .error "手动解决版本冲突失败: 包文件写入失败")
      else
        match execGitT env tr2 ["add", "package.json"] with
        | (tr3, .error e) => (tr3, .error ("手动解决版本冲突失败: " ++ e))
        | (tr3, .ok _) =>
          match execGitT env tr3
              ["commit", "-m", getCommitMessage src tgt ver ++ " (resolved version conflicts)"] with
          | (tr4, .error e) => (tr4, .error ("手动解决版本冲突失败: " ++ e))
          | (tr4, .ok _) => (tr4, .ok ())

/-- Embedding of `handleMergeConflict`: abort and retry the merge with the
`theirs` strategy; on failure, manual version-conflict resolution; on
failure again, report an issue (`reportMergeConflict`, a non-git effect)
and throw the terminal merge-conflict error. -/
def handleMergeConflict (env : GitEnv) (tr : Trace) (src tgt ver : String) :
    Trace × Except String Unit :=
  let fallback := fun (tr' : Trace) =>
    match resolveVersionConflicts env tr' src tgt ver with
    | (tr'', .ok _) => (tr'', Except.ok ())
    | (tr'', .error _) =>
      (tr'', Except.error ("无法自动解决 " ++ src ++ " -> " ++ tgt
        ++ " 的合并冲突，已创建 issue 需要人工介入"))
  match execGitT env tr ["merge", "--abort"] with
  | (tr1, .error _) => fallback tr1
  | (tr1, .ok _) =>
    match execGitT env tr1 ["merge", src, "-X", "theirs", "--no-edit", "-m",
        getCommitMessage src tgt ver ++ " (auto-resolved conflicts)"] with
    | (tr2, .error _) => fallback tr2
    | (tr2, .ok _) => (tr2, .ok ())

/-- Embedding of `syncDownstream` (merge-based edge): fetch, switch, merge
(falling back to `handleMergeConflict`), push; any uncaught failure becomes
a failed `BranchSyncResult` carrying the conflicting pair. -/
def syncDownstream (env : GitEnv) (tr : Trace) (src tgt ver : String) :
    Trace × BranchSyncResult :=
  let fail := fun (e : String) =>
    { success := false, version := none, conflicts := some [src, tgt],
      error := some (src ++ " -> " ++ tgt ++ " merge 同步失败: " ++ e) : BranchSyncResult }
  match execGitT env tr ["fetch", "origin", tgt] with
  | (tr1, .error e) => (tr1, fail e)
  | (tr1, .ok _) =>
    match execGitT env tr1 ["switch", tgt] with
    | (tr2, .error e) => (tr2, fail e)
    | (tr2, .ok _) =>
      let afterMerge :=
        match execGitT env tr2 ["merge", src, "--no-edit", "--no-ff", "-m",
            getCommitMessage src tgt ver] with
        | (tr3, .ok _) => (tr3, Except.ok ())
        | (tr3, .error _) => handleMergeConflict env tr3 src tgt ver
      match afterMerge with
      | (tr4, .error e) => (tr4, fail e)
      | (tr4, .ok _) =>
        match execGitT env tr4 ["push", "origin", tgt, "--force-with-lease"] with
        | (tr5, .error e) => (tr5, fail e)
        | (tr5, .ok _) =>
          (tr5, { success := true, version := some ver, conflicts := none, error := none })

/-- Embedding of `syncDownstreamWithRebase` (rebase-based edge): fetch,
switch, rebase; on rebase conflict abort and fall back to a merge; push. -/
def syncDownstreamWithRebase (env : GitEnv) (tr : Trace) (src tgt ver : String) :
    Trace × BranchSyncResult :=
  let fail := fun (e : String) =>
    { success := false, version := none, conflicts := some [src, tgt],
      error := some (src ++ " -> " ++ tgt ++ " rebase 同步失败: " ++ e) : BranchSyncResult }
  match execGitT env tr ["fetch", "origin", tgt] with
  | (tr1, .error e) => (tr1, fail e)
  | (tr1, .ok _) =>
    match execGitT env tr1 ["switch", tgt] with
    | (tr2, .error e) => (tr2, fail e)
    | (tr2, .ok _) =>
      let afterRebase :=
        match execGitT env tr2 ["rebase", src] with
        | (tr3, .ok _) => (tr3, Except.ok ())
        | (tr3, .error _) =>
          match execGitT env tr3 ["rebase", "--abort"] with
          | (tr4, .error e) => (tr4, Except.error e)
          | (tr4, .ok _) =>
            match execGitT env tr4 ["merge", src, "--no-edit", "--no-ff", "-m",
                getCommitMessage src tgt ver] with
            | (tr5, r) => (tr5, r)
      match afterRebase with
      | (tr6, .error e) => (tr6, fail e)
      | (tr6, .ok _) =>
        match execGitT env tr6 ["push", "origin", tgt, "--force-with-lease"] with
        | (tr7, .error e) => (tr7, fail e)
        | (tr7, .ok _) =>
          (tr7, { success := true, version := some ver, conflicts := none, error := none })

/-- Embedding of `syncBranches`: the auto-sync guard applies only to `push`
events; from `main` the beta edge runs first and the beta→alpha edge runs
only when it succeeded; from `beta` only the alpha edge runs; from `alpha`
nothing runs. -/
def syncBranches (env : GitEnv) (targetBranch : SupportedBranch) (newVersion : String) :
    Trace × List BranchSyncResult :=
  if env.eventName = "push" && isAutoSyncCommit env then
    ([], [{ success := true, version := none, conflicts := none, error := none }])
  else
    match targetBranch with
    | .main =>
      match syncDownstreamWithRebase env [] "main" "beta" newVersion with
      | (tr1, betaResult) =>
        if betaResult.success then
          match syncDownstream env tr1 "beta" "alpha" newVersion with
          | (tr2, alphaResult) => (tr2, [betaResult, alphaResult])
        else (tr1, [betaResult])
    | .beta =>
      match syncDownstream env [] "beta" "alpha" newVersion with
      | (tr1, result) => (tr1, [result])
    | .alpha => ([], [])

-- ==================== version update, tagging, publish rollback ====================

/-- Embedding of `execGitWithOutput ['rev-parse', 'HEAD']`: the recorded
commit SHA before the version change. -/
def revParseHead (env : GitEnv) (tr : Trace) : Trace × Except String String :=
  (tr ++ [["rev-parse", "HEAD"]],
   if env.gitOk ["rev-parse", "HEAD"] then .ok env.headSha
   else .error "执行 git rev-parse HEAD")

/-- One push attempt of `safePushWithRetry`: retries (attempt > 1) fetch and
rebase first, then push the branch and the tag. -/
def pushOnce (env : GitEnv) (tr : Trace) (tgt ver : String) (retryPrep : Bool) :
    Trace × Except String Unit :=
  let go := fun (tr' : Trace) =>
    match execGitT env tr' ["push", "origin", tgt] with
    | (tr2, .error e) => (tr2, Except.error e)
    | (tr2, .ok _) =>
      match execGitT env tr2 ["push", "origin", ver] with
      | (tr3, r) => (tr3, r)
  if retryPrep then
    match execGitT env tr ["fetch", "origin", tgt] with
    | (tr1, .error e) => (tr1, .error e)
    | (tr1, .ok _) =>
      match execGitT env tr1 ["rebase", "origin/" ++ tgt] with
      | (tr2, .error e) => (tr2, .error e)
      | (tr2, .ok _) => go tr2
  else go tr

/-- Embedding of `safePushWithRetry` with its default `maxRetries = 3`:
the first attempt pushes directly, later attempts fetch and rebase first;
the failure of the final attempt is rethrown. -/
def safePushWithRetry (env : GitEnv) (tr : Trace) (tgt ver : String) :
    Trace × Except String Unit :=
  match pushOnce env tr tgt ver false with
  | (tr1, .ok _) => (tr1, .ok ())
  | (tr1, .error _) =>
    match pushOnce env tr1 tgt ver true with
    | (tr2, .ok _) => (tr2, .ok ())
    | (tr2, .error _) => pushOnce env tr2 tgt ver true

/-- Embedding of `commitAndPushVersion`: stage everything, commit the bump,
create the tag, push with retry; failures are wrapped. -/
def commitAndPushVersion (env : GitEnv) (tr : Trace) (cur version : String)
    (targetBranch : SupportedBranch) : Trace × Except String Unit :=
  let wrap := fun (e : String) => "提交和推送版本更改: " ++ e
  match execGitT env tr ["add", "."] with
  | (tr1, .error e) => (tr1, .error (wrap e))
  | (tr1, .ok _) =>
    match execGitT env tr1 ["commit", "-m", "chore: bump version to "
        ++ (versionParse cur version).pkgVersion ++ " for " ++ branchName targetBranch] with
    | (tr2, .error e) => (tr2, .error (wrap e))
    | (tr2, .ok _) =>
      match execGitT env tr2 ["tag", (versionParse cur version).targetVersion] with
      | (tr3, .error e) => (tr3, .error (wrap e))
      | (tr3, .ok _) =>
        match safePushWithRetry env tr3 (branchName targetBranch)
            (versionParse cur version).targetVersion with
        | (tr4, .error e) => (tr4, .error (wrap e))
        | (tr4, .ok _) => (tr4, .ok ())

/-- Embedding of `hasFileChanges 'CHANGELOG.md'`: missing file or a failing
status command yield `false` (errors are swallowed); non-empty porcelain
status yields `true`; otherwise `git diff --exit-code` decides. -/
def hasChangelogChanges (env : GitEnv) (tr : Trace) : Trace × Bool :=
  if !env.clExists then (tr, false)
  else
    let tr1 := tr ++ [["status", "--porcelain", "CHANGELOG.md"]]
    if !env.gitOk ["status", "--porcelain", "CHANGELOG.md"] then (tr1, false)
    else if env.clStatusNonempty then (tr1, true)
    else
      let tr2 := tr1 ++ [["diff", "--exit-code", "CHANGELOG.md"]]
      (tr2, !env.gitOk ["diff", "--exit-code", "CHANGELOG.md"])

/-- Embedding of `commitChangelog` via `commitAndPushFile`: skipped when the
file did not change; otherwise configure the git user, stage, commit and
push the CHANGELOG. -/
def commitChangelog (env : GitEnv) (tr : Trace) (cur version : String)
    (targetBranch : SupportedBranch) : Trace × Except String Unit :=
  match hasChangelogChanges env tr with
  | (tr1, false) => (tr1, .ok ())
  | (tr1, true) =>
    match execGitT env tr1 ["config", "user.name", "GitHub Action"] with
    | (tr2, .error e) => (tr2, .error e)
    | (tr2, .ok _) =>
      match execGitT env tr2 ["config", "user.email", "action@github.com"] with
      | (tr3, .error e) => (tr3, .error e)
      | (tr3, .ok _) =>
        match execGitT env tr3 ["add", "CHANGELOG.md"] with
        | (tr4, .error e) => (tr4, .error e)
        | (tr4, .ok _) =>
          match execGitT env tr4 ["commit", "-m", "docs: update CHANGELOG for "
              ++ addVersionPref cur version] with
          | (tr5, .error e) => (tr5, .error e)
          | (tr5, .ok _) =>
            match execGitT env tr5
                ["push", "origin", "HEAD:refs/heads/" ++ branchName targetBranch] with
            | (tr6, r) => (tr6, r)

/-- Embedding of `deleteTagSafely`: the local delete may fail with only a
warning; a failing remote delete throws. -/
def deleteTagSafely (env : GitEnv) (tr : Trace) (tag : String) :
    Trace × Except String Unit :=
  let tr1 := tr ++ [["tag", "-d", tag]]
  match execGitT env tr1 ["push", "origin", ":refs/tags/" ++ tag] with
  | (tr2, .error e) => (tr2, .error ("删除远程标签 " ++ tag ++ " 失败: " ++ e))
  | (tr2, .ok _) => (tr2, .ok ())

/-- Embedding of `cleanupTagAfterFailure`. -/
def cleanupTagAfterFailure (env : GitEnv) (tr : Trace) (tag : String) :
    Trace × Except String Unit :=
  match deleteTagSafely env tr tag with
  | (tr1, .error e) => (tr1, .error ("清理标签 " ++ tag ++ " 失败: " ++ e))
  | (tr1, .ok _) => (tr1, .ok ())

/-- Embedding of `restoreBranchToSha`: hard reset to the recorded SHA and
force-with-lease push of the branch. -/
def restoreBranchToSha (env : GitEnv) (tr : Trace) (branch : SupportedBranch) (sha : String) :
    Trace × Except String Unit :=
  let wrap := fun (e : String) =>
    "恢复分支 " ++ branchName branch ++ " 到 " ++ sha ++ " 失败: " ++ e
  match execGitT env tr ["reset", "--hard", sha] with
  | (tr1, .error e) => (tr1, .error (wrap e))
  | (tr1, .ok _) =>
    match execGitT env tr1 ["push", "--force-with-lease", "origin", branchName branch] with
    | (tr2, .error e) => (tr2, .error (wrap e))
    | (tr2, .ok _) => (tr2, .ok ())

/-- Embedding of `cleanupAfterPublishFailure`: delete the tag locally and
remotely, then restore the branch to the pre-change SHA. -/
def cleanupAfterPublishFailure (env : GitEnv) (tr : Trace) (tag : String)
    (branch : SupportedBranch) (originalSha : String) : Trace × Except String Unit :=
  match cleanupTagAfterFailure env tr tag with
  | (tr1, .error e) => (tr1, .error e)
  | (tr1, .ok _) => restoreBranchToSha env tr1 branch originalSha

/-- Embedding of `updateVersionAndCreateTag` (src/src/git.ts): record the
pre-change SHA, update and push the version, require a CHANGELOG change,
publish to npm, and on a publish failure (thrown or reported) clean up the
tag and restore the branch. Every error is wrapped by the outer catch. -/
def updateVersionAndCreateTag (env : GitEnv) (cur newVersion : String)
    (targetBranch : SupportedBranch) : Trace × Except String Unit :=
  let wrap := fun (e : String) => "版本更新和标签创建失败: " ++ e
  match execGitT env [] ["switch", branchName targetBranch] with
  | (tr1, .error e) => (tr1, .error (wrap e))
  | (tr1, .ok _) =>
    match revParseHead env tr1 with
    | (tr2, .error e) => (tr2, .error (wrap e))
    | (tr2, .ok originalSha) =>
      if !env.pkgOk then (tr2, .error (wrap "更新版本文件失败"))
      else
        match commitAndPushVersion env tr2 cur newVersion targetBranch with
        | (tr3, .error e) => (tr3, .error (wrap e))
        | (tr3, .ok _) =>
          match hasChangelogChanges env tr3 with
          | (tr4, false) =>
            (tr4, .error (wrap "CHANGELOG 未生成任何内容，这不应该发生。请检查 PR 描述或提交历史是否包含足够的变更信息。"))
          | (tr4, true) =>
            match commitChangelog env tr4 cur newVersion targetBranch with
            | (tr5, .error e) => (tr5, .error (wrap e))
            | (tr5, .ok _) =>
              match env.npmOutcome with
              | .published => (tr5, .ok ())
              | .reportedFalse =>
                match cleanupAfterPublishFailure env tr5
                    (versionParse cur newVersion).targetVersion targetBranch originalSha with
                | (tr6, .error e) => (tr6, .error (wrap e))
                | (tr6, .ok _) => (tr6, .ok ())
              | .threw m =>
                match cleanupAfterPublishFailure env tr5
                    (versionParse cur newVersion).targetVersion targetBranch originalSha with
                | (tr6, .error e) => (tr6, .error (wrap e))
                | (tr6, .ok _) => (tr6, .error (wrap m))

-- ==================== lemmas about prefix stripping and the repair ====================

theorem digit_ne (c d : Char) (hc : c.isDigit = true) (hd : d.isDigit = false) : c ≠ d := by
  intro h
  subst h
  rw [hc] at hd
  cases hd

theorem strStarts_cons_false (p : Char) (ps : List Char) (c : Char) (t : List Char)
    (h : ¬ p = c) : strStarts (p :: ps) (c :: t) = false := by
  simp [strStarts, h]

/-- A version string beginning with a digit matches no supported prefix. -/
theorem findPref_none_of_digit (s : String) (c : Char) (t : List Char)
    (hh : s.data = c :: t) (hc : c.isDigit = true) :
    findPref SUPPORTED_PREFIXES s = none := by
  have hv : ¬ ('v' = c) := fun h => digit_ne c 'v' hc (by decide) h.symm
  have hr : ¬ ('r' = c) := fun h => digit_ne c 'r' hc (by decide) h.symm
  show findPref ["version-", "ver-", "rel-", "v"] s = none
  unfold findPref
  rw [hh, show ("version-".data) = 'v' :: ("ersion-".data) from rfl,
    strStarts_cons_false _ _ _ _ hv]
  unfold findPref
  rw [hh, show ("ver-".data) = 'v' :: ("er-".data) from rfl,
    strStarts_cons_false _ _ _ _ hv]
  unfold findPref
  rw [hh, show ("rel-".data) = 'r' :: ("el-".data) from rfl,
    strStarts_cons_false _ _ _ _ hr]
  unfold findPref
  rw [hh, show ("v".data) = 'v' :: ([] : List Char) from rfl,
    strStarts_cons_false _ _ _ _ hv]
  rfl

theorem cleanVersion_id_of_digit (cur s : String) (c : Char) (t : List Char)
    (hh : s.data = c :: t) (hc : c.isDigit = true) : cleanVersion cur s = s := by
  unfold cleanVersion versionParse
  rw [findPref_none_of_digit s c t hh hc]

/-- Scanning characters that are not `-` leaves the repair untouched. -/
theorem repairPre_append_nodash (l r : List Char) (h : ∀ c ∈ l, c ≠ '-') :
    repairPre (l ++ r) = l ++ repairPre r := by
  induction l with
  | nil => rfl
  | cons c t ih =>
    have hc : c ≠ '-' := h c (by simp)
    have h0 : strStarts ("-0-alpha.".data) (c :: (t ++ r)) = false := by
      rw [show ("-0-alpha.".data) = '-' :: ("0-alpha.".data) from rfl]
      exact strStarts_cons_false _ _ _ _ (fun hcon => hc hcon.symm)
    have h1 : strStarts ("-0-beta.".data) (c :: (t ++ r)) = false := by
      rw [show ("-0-beta.".data) = '-' :: ("0-beta.".data) from rfl]
      exact strStarts_cons_false _ _ _ _ (fun hcon => hc hcon.symm)
    show repairPre (c :: (t ++ r)) = c :: (t ++ repairPre r)
    rw [repairPre, h0, h1]
    simp only [Bool.false_eq_true, if_false]
    rw [ih (fun x hx => h x (by simp [hx]))]

/-- A `-`-free list is left untouched by the repair. -/
theorem repairPre_nodash (l : List Char) (h : ∀ c ∈ l, c ≠ '-') :
    repairPre l = l := by
  have h1 := repairPre_append_nodash l [] h
  have h2 : repairPre ([] : List Char) = [] := rfl
  rw [h2] at h1
  simpa using h1

/-- The characters of a base-version string: nonempty, digit-headed, and
free of `-` and `+`. -/
theorem baseStr_data (ma mi pa : Nat) :
    (baseStr ma mi pa).data =
      (Nat.repr ma).data ++ '.' :: ((Nat.repr mi).data ++ '.' :: (Nat.repr pa).data) := by
  show ((Nat.repr ma ++ "." ++ Nat.repr mi ++ "." ++ Nat.repr pa).data) = _
  show (Nat.repr ma).data ++ ".".data ++ (Nat.repr mi).data ++ ".".data ++ (Nat.repr pa).data = _
  simp [List.append_assoc]

theorem baseStr_nodash (ma mi pa : Nat) : ∀ c ∈ (baseStr ma mi pa).data, c ≠ '-' := by
  intro c hc
  rw [baseStr_data] at hc
  have hdig : ∀ (n : Nat) (x : Char), x ∈ (Nat.repr n).data → x ≠ '-' := by
    intro n x hx
    have := repr_all_digit n
    simp only [List.all_eq_true] at this
    exact digit_ne x '-' (this x hx) (by decide)
  simp only [List.mem_append, List.mem_cons] at hc
  rcases hc with h | h | h | h | h
  · exact hdig ma c h
  · subst h; decide
  · exact hdig mi c h
  · subst h; decide
  · exact hdig pa c h

theorem baseStr_head (ma mi pa : Nat) :
    ∃ c t, (baseStr ma mi pa).data = c :: t ∧ c.isDigit = true := by
  obtain ⟨c, t', hct⟩ := List.exists_cons_of_ne_nil (repr_data_ne_nil ma)
  refine ⟨c, t' ++ '.' :: ((Nat.repr mi).data ++ '.' :: (Nat.repr pa).data), ?_, ?_⟩
  · rw [baseStr_data, hct]
    rfl
  · have := repr_all_digit ma
    rw [hct] at this
    simp only [List.all_cons, Bool.and_eq_true] at this
    exact this.1

theorem strData_append (a b : String) : (a ++ b).data = a.data ++ b.data := rfl

theorem repairPre_beta_tail (noBody : List Char) :
    repairPre ("-beta.".data ++ noBody) = '-' :: repairPre ("beta.".data ++ noBody) := by
  have hexp : ("-beta.".data) ++ noBody = '-' :: ("beta.".data ++ noBody) := rfl
  rw [hexp, repairPre,
    show strStarts ("-0-alpha.".data) ('-' :: ("beta.".data ++ noBody)) = false from rfl]
  simp only [Bool.false_eq_true, if_false]
  rw [show strStarts ("-0-beta.".data) ('-' :: ("beta.".data ++ noBody)) = false from rfl]
  simp only [Bool.false_eq_true, if_false]

theorem repairPre_alpha_tail (noBody : List Char) :
    repairPre ("-alpha.".data ++ noBody) = '-' :: repairPre ("alpha.".data ++ noBody) := by
  have hexp : ("-alpha.".data) ++ noBody = '-' :: ("alpha.".data ++ noBody) := rfl
  rw [hexp, repairPre,
    show strStarts ("-0-alpha.".data) ('-' :: ("alpha.".data ++ noBody)) = false from rfl]
  simp only [Bool.false_eq_true, if_false]
  rw [show strStarts ("-0-beta.".data) ('-' :: ("alpha.".data ++ noBody)) = false from rfl]
  simp only [Bool.false_eq_true, if_false]

/-- **C9** — Malformed-prerelease repair: for every base version
`ma.mi.pa`, every counter `n`, every configured prefix and both known
pre-release kinds, parsing `ma.mi.pa-0-<kind>.n` yields the same result as
parsing the canonical `ma.mi.pa-<kind>.n`: the erroneous numeric `0`
segment before the kind is collapsed before parsing. -/
theorem claim_c9_repair (cur : String) (ma mi pa n : Nat) (k : String)
    (hk : k = "alpha" ∨ k = "beta") :
    parseVersion cur (baseStr ma mi pa ++ "-0-" ++ k ++ "." ++ Nat.repr n) =
    parseVersion cur (baseStr ma mi pa ++ "-" ++ k ++ "." ++ Nat.repr n) := by
  obtain ⟨c, t, hct, hc⟩ := baseStr_head ma mi pa
  have hN : ∀ x ∈ (Nat.repr n).data, x ≠ '-' := by
    intro x hx
    have := repr_all_digit n
    simp only [List.all_eq_true] at this
    exact digit_ne x '-' (this x hx) (by decide)
  rcases hk with rfl | rfl
  · -- kind = alpha
    have hd1 : (baseStr ma mi pa ++ "-0-" ++ "alpha" ++ "." ++ Nat.repr n).data =
        (baseStr ma mi pa).data ++ ("-0-alpha.".data ++ (Nat.repr n).data) := by
      simp only [strData_append, List.append_assoc]
      rfl
    have hd2 : (baseStr ma mi pa ++ "-" ++ "alpha" ++ "." ++ Nat.repr n).data =
        (baseStr ma mi pa).data ++ ("-alpha.".data ++ (Nat.repr n).data) := by
      simp only [strData_append, List.append_assoc]
      rfl
    have hclean1 := cleanVersion_id_of_digit cur _ c (t ++ ("-0-alpha.".data ++ (Nat.repr n).data))
      (by rw [hd1, hct]; rfl) hc
    have hclean2 := cleanVersion_id_of_digit cur _ c (t ++ ("-alpha.".data ++ (Nat.repr n).data))
      (by rw [hd2, hct]; rfl) hc
    have hrep1 : repairPre ("-0-alpha.".data ++ (Nat.repr n).data) =
        "-alpha.".data ++ (Nat.repr n).data := rfl
    have hrep2 : repairPre ("-alpha.".data ++ (Nat.repr n).data) =
        "-alpha.".data ++ (Nat.repr n).data := by
      rw [repairPre_alpha_tail,
        repairPre_append_nodash ("alpha.".data) _ (by
          intro x hx
          fin_cases hx <;> decide),
        repairPre_nodash _ hN]
      rfl
    unfold parseVersion
    rw [hclean1, hclean2, hd1, hd2,
      repairPre_append_nodash _ _ (baseStr_nodash ma mi pa),
      repairPre_append_nodash _ _ (baseStr_nodash ma mi pa), hrep1, hrep2]
  · -- kind = beta
    have hd1 : (baseStr ma mi pa ++ "-0-" ++ "beta" ++ "." ++ Nat.repr n).data =
        (baseStr ma mi pa).data ++ ("-0-beta.".data ++ (Nat.repr n).data) := by
      simp only [strData_append, List.append_assoc]
      rfl
    have hd2 : (baseStr ma mi pa ++ "-" ++ "beta" ++ "." ++ Nat.repr n).data =
        (baseStr ma mi pa).data ++ ("-beta.".data ++ (Nat.repr n).data) := by
      simp only [strData_append, List.append_assoc]
      rfl
    have hclean1 := cleanVersion_id_of_digit cur _ c (t ++ ("-0-beta.".data ++ (Nat.repr n).data))
      (by rw [hd1, hct]; rfl) hc
    have hclean2 := cleanVersion_id_of_digit cur _ c (t ++ ("-beta.".data ++ (Nat.repr n).data))
      (by rw [hd2, hct]; rfl) hc
    have hrep1 : repairPre ("-0-beta.".data ++ (Nat.repr n).data) =
        "-beta.".data ++ (Nat.repr n).data := rfl
    have hrep2 : repairPre ("-beta.".data ++ (Nat.repr n).data) =
        "-beta.".data ++ (Nat.repr n).data := by
      rw [repairPre_beta_tail,
        repairPre_append_nodash ("beta.".data) _ (by
          intro x hx
          fin_cases hx <;> decide),
        repairPre_nodash _ hN]
      rfl
    unfold parseVersion
    rw [hclean1, hclean2, hd1, hd2,
      repairPre_append_nodash _ _ (baseStr_nodash ma mi pa),
      repairPre_append_nodash _ _ (baseStr_nodash ma mi pa), hrep1, hrep2]

theorem claim_c9_repair_witness :
    parseVersion "v" "1.0.0-0-beta.0" = parseVersion "v" "1.0.0-beta.0" ∧
    parseVersion "v" "1.0.0-beta.0" = some ⟨1, 0, 0, [.str "beta".data, .num 0], []⟩ := by
  constructor
  · have h := claim_c9_repair "v" 1 0 0 0 "beta" (Or.inr rfl)
    have e1 : baseStr 1 0 0 ++ "-0-" ++ "beta" ++ "." ++ Nat.repr 0 = "1.0.0-0-beta.0" := by
      decide
    have e2 : baseStr 1 0 0 ++ "-" ++ "beta" ++ "." ++ Nat.repr 0 = "1.0.0-beta.0" := by
      decide
    rw [e1, e2] at h
    exact h
  · decide

-- ==================== C6: longest-prefix stripping ====================

/-- The specification's notion of prefix stripping: either the longest
matching configured prefix is removed, or no prefix matches and the string
is unchanged. -/
def IsLongestStrip (s out : String) : Prop :=
  (∃ p ∈ SUPPORTED_PREFIXES, strStarts p.data s.data = true ∧
      out = String.mk (s.data.drop p.data.length) ∧
      ∀ q ∈ SUPPORTED_PREFIXES, strStarts q.data s.data = true →
        q.data.length ≤ p.data.length) ∨
  ((∀ q ∈ SUPPORTED_PREFIXES, strStarts q.data s.data = false) ∧ out = s)

/-- **C6 counterexample** — the legacy `cleanVersion` (src/unnamed/part_008)
under the default configured prefix `v` strips the one-character prefix
from `version-1.2.3`, producing exactly the outcome the claim rules out. -/
theorem claim_c6_counterexample :
    cleanVersionLegacy "v" "version-1.2.3" = "ersion-1.2.3" ∧
    cleanVersionLegacy "v" "version-1.2.3" ≠ "1.2.3" := by
  constructor
  · decide
  · decide

/-- **C6 (amended)** — the current `versionParse` (src/src/core.ts) strips
the longest matching configured prefix for every version string and every
configured current prefix; `version-1.2.3` always yields `1.2.3`. -/
theorem claim_c6_amended (cur s : String) : IsLongestStrip s (cleanVersion cur s) := by
  unfold cleanVersion versionParse
  by_cases h8 : strStarts ("version-".data) s.data = true
  · have hfp : findPref SUPPORTED_PREFIXES s = some "version-" := by
      show findPref ["version-", "ver-", "rel-", "v"] s = _
      unfold findPref
      rw [if_pos h8]
    rw [hfp]
    refine Or.inl ⟨"version-", by decide, h8, rfl, ?_⟩
    intro q hq _
    fin_cases hq <;> decide
  · by_cases h4 : strStarts ("ver-".data) s.data = true
    · have hfp : findPref SUPPORTED_PREFIXES s = some "ver-" := by
        show findPref ["version-", "ver-", "rel-", "v"] s = _
        unfold findPref
        rw [if_neg h8]
        unfold findPref
        rw [if_pos h4]
      rw [hfp]
      refine Or.inl ⟨"ver-", by decide, h4, rfl, ?_⟩
      intro q hq hqs
      fin_cases hq
      · exact absurd hqs h8
      · decide
      · decide
      · decide
    · by_cases hr : strStarts ("rel-".data) s.data = true
      · have hfp : findPref SUPPORTED_PREFIXES s = some "rel-" := by
          show findPref ["version-", "ver-", "rel-", "v"] s = _
          unfold findPref
          rw [if_neg h8]
          unfold findPref
          rw [if_neg h4]
          unfold findPref
          rw [if_pos hr]
        rw [hfp]
        refine Or.inl ⟨"rel-", by decide, hr, rfl, ?_⟩
        intro q hq hqs
        fin_cases hq
        · exact absurd hqs h8
        · exact absurd hqs h4
        · decide
        · decide
      · by_cases hv : strStarts ("v".data) s.data = true
        · have hfp : findPref SUPPORTED_PREFIXES s = some "v" := by
            show findPref ["version-", "ver-", "rel-", "v"] s = _
            unfold findPref
            rw [if_neg h8]
            unfold findPref
            rw [if_neg h4]
            unfold findPref
            rw [if_neg hr]
            unfold findPref
            rw [if_pos hv]
          rw [hfp]
          refine Or.inl ⟨"v", by decide, hv, rfl, ?_⟩
          intro q hq hqs
          fin_cases hq
          · exact absurd hqs h8
          · exact absurd hqs h4
          · exact absurd hqs hr
          · decide
        · have hfp : findPref SUPPORTED_PREFIXES s = none := by
            show findPref ["version-", "ver-", "rel-", "v"] s = _
            unfold findPref
            rw [if_neg h8]
            unfold findPref
            rw [if_neg h4]
            unfold findPref
            rw [if_neg hr]
            unfold findPref
            rw [if_neg hv]
            rfl
          rw [hfp]
          refine Or.inr ⟨?_, rfl⟩
          intro q hq
          fin_cases hq
          · exact Bool.not_eq_true _ ▸ (by simpa using h8)
          · exact Bool.not_eq_true _ ▸ (by simpa using h4)
          · exact Bool.not_eq_true _ ▸ (by simpa using hr)
          · exact Bool.not_eq_true _ ▸ (by simpa using hv)

-- ==================== C2 / C8: branch-state gate ====================

theorem getTagType_cases (tag : String) :
    getTagType tag = "alpha" ∨ getTagType tag = "beta" ∨ getTagType tag = "release" ∨
    getTagType tag = "unknown" := by
  unfold getTagType
  split_ifs <;> simp

/-- **C2** — Release-branch gate: with no tag at all every branch passes;
with at least one tag, promotion into `main` is rejected exactly when the
most recent tag overall is not of kind `beta`; when the most recent tag is
a release tag the rejection message names that tag and its kind; and a
rejection prevents the upgrade strategy from running (the manager
propagates the validation error). -/
theorem claim_c2_main_gate (tags : List String) :
    (tags = [] → ∀ b, validateBranchVersionState tags b = .ok ()) ∧
    (∀ t rest, tags = t :: rest →
      ((∃ e, validateBranchVersionState tags SupportedBranch.main = .error e) ↔
          getTagType t ≠ "beta") ∧
      (getTagType t = "release" →
        ∃ e, validateBranchVersionState tags SupportedBranch.main = .error e ∧
          (∃ l r, e = l ++ t ++ r) ∧ (∃ l r, e = l ++ "release" ++ r)) ∧
      (∀ e ctx cur, ctx.targetBranch = SupportedBranch.main →
        validateBranchVersionState tags SupportedBranch.main = .error e →
        upgradeManagerUpgrade cur tags ctx = .error e)) := by
  constructor
  · intro h b
    subst h
    cases b <;> rfl
  · intro t rest h
    subst h
    have hlt : getLatestTag (t :: rest) = some t := rfl
    refine ⟨?_, ?_, ?_⟩
    · unfold validateBranchVersionState
      rw [hlt]
      dsimp only
      rcases getTagType_cases t with hty | hty | hty | hty <;>
        simp [hty, branchAllowedTypes]
    · intro hrel
      refine ⟨branchErrorMsg SupportedBranch.main ++ "，当前最新版本: " ++ t
        ++ " (" ++ getTagType t ++ ")", ?_, ?_, ?_⟩
      · unfold validateBranchVersionState
        rw [hlt]
        dsimp only
        rw [hrel]
        rfl
      · refine ⟨branchErrorMsg SupportedBranch.main ++ "，当前最新版本: ",
          " (" ++ getTagType t ++ ")", ?_⟩
        simp only [String.append_assoc]
      · refine ⟨branchErrorMsg SupportedBranch.main ++ "，当前最新版本: " ++ t ++ " (",
          ")", ?_⟩
        rw [hrel]
    · intro e ctx cur hctx hval
      unfold upgradeManagerUpgrade
      rw [hctx, hval]

theorem claim_c2_main_gate_witness :
    (∃ e, validateBranchVersionState ["v1.0.0"] SupportedBranch.main = .error e ∧
      (∃ l r, e = l ++ "v1.0.0" ++ r) ∧ (∃ l r, e = l ++ "release" ++ r)) ∧
    validateBranchVersionState [] SupportedBranch.main = .ok () ∧
    validateBranchVersionState ["v1.0.0-beta.3"] SupportedBranch.main = .ok () := by
  refine ⟨((claim_c2_main_gate ["v1.0.0"]).2 "v1.0.0" [] rfl).2.1 (by decide), ?_, ?_⟩
  · exact (claim_c2_main_gate []).1 rfl SupportedBranch.main
  · rfl

/-- **C8 counterexample** — with the single most recent tag a release tag,
validation of the pre-release target branch `beta` rejects it, although the
claim says a release latest-tag kind passes: `beta`'s allow-list in the
source is `['alpha', 'beta']`, not `['release', 'beta']`. -/
theorem claim_c8_counterexample :
    getTagType "v1.0.0" = "release" ∧
    validateBranchVersionState ["v1.0.0"] SupportedBranch.beta =
      .error "Beta 分支只能在 Alpha 版本或 Beta 版本后继续开发，当前最新版本: v1.0.0 (release)" :=
  ⟨rfl, rfl⟩

/-- **C8 (amended)** — for the pre-release target branch `beta`, when at
least one tag exists, validation passes exactly when the most recent tag's
kind is `alpha` or `beta`; any other latest-tag kind (including `release`)
is rejected. -/
theorem claim_c8_amended (tags : List String) (t : String) (rest : List String)
    (h : tags = t :: rest) :
    validateBranchVersionState tags SupportedBranch.beta = .ok () ↔
      (getTagType t = "alpha" ∨ getTagType t = "beta") := by
  subst h
  have hlt : getLatestTag (t :: rest) = some t := rfl
  unfold validateBranchVersionState
  rw [hlt]
  dsimp only
  rcases getTagType_cases t with hty | hty | hty | hty <;>
    simp [hty, branchAllowedTypes]

theorem claim_c8_amended_witness :
    (validateBranchVersionState ["v1.1.0-alpha.2"] SupportedBranch.beta = .ok ()) ∧
    ¬ (validateBranchVersionState ["v1.0.0"] SupportedBranch.beta = .ok ()) := by
  constructor
  · exact (claim_c8_amended ["v1.1.0-alpha.2"] "v1.1.0-alpha.2" [] rfl).mpr
      (Or.inl (by decide))
  · intro hcon
    rcases (claim_c8_amended ["v1.0.0"] "v1.0.0" [] rfl).mp hcon with hr | hr <;> revert hr
      <;> decide

-- ==================== C5: release strategy strips the prerelease ====================

theorem string_eq_of_data {a b : String} (h : a.data = b.data) : a = b := by
  cases a
  cases b
  cases h
  rfl

theorem svChars_baseOnly (ma mi pa : Nat) :
    svChars { major := ma, minor := mi, patch := pa, prerelease := [], build := [] } =
      (baseStr ma mi pa).data := by
  rw [baseStr_data]
  unfold svChars
  simp

theorem baseStr_eq_svToString (ma mi pa : Nat) :
    baseStr ma mi pa =
      svToString { major := ma, minor := mi, patch := pa, prerelease := [], build := [] } := by
  apply string_eq_of_data
  show (baseStr ma mi pa).data =
    svChars { major := ma, minor := mi, patch := pa, prerelease := [], build := [] }
  rw [svChars_baseOnly]

/-- **C5** — Release-branch strategy result: for every incoming version that
parses to a pre-release version `p`, the `main` strategy yields exactly the
`major.minor.patch` base string of `p`, and that string itself parses back
to the base version with an empty prerelease (no pre-release residue). -/
theorem claim_c5_main_strategy (cur : String) (ctx : UpgradeContext) (p : SemVer)
    (hp : parseVersion cur ctx.baseVersion = some p)
    (hpre : p.prerelease ≠ []) :
    mainStrategyExecute cur ctx = some (baseStr p.major p.minor p.patch) ∧
    semverParse (baseStr p.major p.minor p.patch) =
      some { major := p.major, minor := p.minor, patch := p.patch,
             prerelease := [], build := [] } := by
  constructor
  · unfold mainStrategyExecute getBaseVersionString
    rw [hp]
  · obtain ⟨hwf, hlen⟩ := semverParse_sound _ p hp
    have hle : (svChars ⟨p.major, p.minor, p.patch, [], []⟩).length ≤ (svChars p).length := by
      unfold svChars
      by_cases hc : p.prerelease.isEmpty
      · simp [hc]
      · simp [hc, List.length_append]
    rw [baseStr_eq_svToString]
    exact semverParse_canonical _ (by intro id hid; cases hid) (le_trans hle hlen)

theorem claim_c5_main_strategy_witness :
    mainStrategyExecute "v"
      { baseVersion := "1.1.0-beta.3", targetBranch := SupportedBranch.main,
        sourceBranch := "beta", currentBranchType := "beta",
        parsed := ⟨1, 1, 0, [.str "beta".data, .num 3], []⟩, labels := none } =
      some "1.1.0" ∧
    semverParse "1.1.0" = some ⟨1, 1, 0, [], []⟩ := by
  obtain ⟨h1, h2⟩ := claim_c5_main_strategy "v"
    { baseVersion := "1.1.0-beta.3", targetBranch := SupportedBranch.main,
      sourceBranch := "beta", currentBranchType := "beta",
      parsed := ⟨1, 1, 0, [.str "beta".data, .num 3], []⟩, labels := none }
    ⟨1, 1, 0, [.str "beta".data, .num 3], []⟩ (by decide) (by decide)
  have hb : baseStr 1 1 0 = "1.1.0" := by decide
  rw [hb] at h1 h2
  exact ⟨h1, h2⟩

-- ==================== C7: normalize and parse round trip ====================

/-- **C7 counterexample** — the round trip fails on the malformed tag
`1.0.0-0-beta.0`: parsing repairs the erroneous `-0-beta.` pattern, so the
normalized canonical form is `v1.0.0-beta.0`, while normalizing the
original tag (which performs no repair) keeps `v1.0.0-0-beta.0`. -/
theorem claim_c7_counterexample :
    parseVersion "v" "1.0.0-0-beta.0" = some ⟨1, 0, 0, [.str "beta".data, .num 0], []⟩ ∧
    normalizeVersion "v" (svToString ⟨1, 0, 0, [.str "beta".data, .num 0], []⟩) =
      "v1.0.0-beta.0" ∧
    normalizeVersion "v" "1.0.0-0-beta.0" = "v1.0.0-0-beta.0" ∧
    ("v1.0.0-beta.0" : String) ≠ "v1.0.0-0-beta.0" := by
  refine ⟨by decide, by decide, by decide, by decide⟩

theorem findPref_v_digit (s : String) (c : Char) (t : List Char)
    (hh : s.data = c :: t) (hc : c.isDigit = true) :
    findPref SUPPORTED_PREFIXES ("v" ++ s) = some "v" := by
  have hdata : ("v" ++ s).data = 'v' :: c :: t := by
    rw [strData_append, hh]
    rfl
  have hvs : ∀ (x : Char) (p : List Char), ¬ (x = c) →
      strStarts ('v' :: x :: p) ('v' :: c :: t) = false := by
    intro x p hx
    simp [strStarts, hx]
  have he : ¬ ('e' = c) := fun h => digit_ne c 'e' hc (by decide) h.symm
  show findPref ["version-", "ver-", "rel-", "v"] ("v" ++ s) = some "v"
  unfold findPref
  rw [hdata, show ("version-".data) = 'v' :: 'e' :: ("rsion-".data) from rfl, hvs 'e' _ he]
  unfold findPref
  rw [hdata, show ("ver-".data) = 'v' :: 'e' :: ("r-".data) from rfl, hvs 'e' _ he]
  unfold findPref
  rw [hdata, show ("rel-".data) = 'r' :: ("el-".data) from rfl,
    strStarts_cons_false _ _ _ _ (by decide)]
  unfold findPref
  rw [hdata, show ("v".data) = 'v' :: ([] : List Char) from rfl,
    show strStarts ('v' :: ([] : List Char)) ('v' :: c :: t) = true from by simp [strStarts]]
  rfl

theorem svToString_head (v : SemVer) :
    ∃ c t, (svToString v).data = c :: t ∧ c.isDigit = true := by
  obtain ⟨c, t', hct⟩ := List.exists_cons_of_ne_nil (repr_data_ne_nil v.major)
  have hdigit : c.isDigit = true := by
    have h := repr_all_digit v.major
    simp only [List.all_eq_true, decide_eq_true_eq] at h
    exact h c (by rw [hct]; exact List.mem_cons_self c t')
  refine ⟨c, t' ++ ('.' :: (Nat.repr v.minor).data ++ '.' :: ((Nat.repr v.patch).data
      ++ (if v.prerelease.isEmpty then []
          else '-' :: joinSep '.' (v.prerelease.map preIdChars)))), ?_, hdigit⟩
  show svChars v = _
  rw [svChars, hct]
  simp

/-- **C7 (amended)** — semantic round trip on the canonical form for the
configured prefix `v`: for every well-formed parsed version whose canonical
string fits the length bound and is untouched by the malformed-prerelease
repair, normalizing the canonical string (which prepends `v`) and parsing
the result recovers exactly the same version with the build dropped. -/
theorem claim_c7_amended (v : SemVer) (hwf : svWF v)
    (hlen : (svChars v).length ≤ 256)
    (hrep : repairPre (svChars v) = svChars v) :
    parseVersion "v" (normalizeVersion "v" (svToString v)) = some { v with build := [] } := by
  obtain ⟨c, t, hct, hc⟩ := svToString_head v
  have hnorm : normalizeVersion "v" (svToString v) = "v" ++ svToString v := by
    unfold normalizeVersion versionParse
    rw [findPref_none_of_digit _ c t hct hc]
  have hclean : cleanVersion "v" ("v" ++ svToString v) = svToString v := by
    unfold cleanVersion versionParse
    rw [findPref_v_digit _ c t hct hc]
    apply string_eq_of_data
    show (("v" ++ svToString v).data.drop ("v".data.length)) = (svToString v).data
    rw [strData_append]
    rfl
  rw [hnorm]
  unfold parseVersion
  rw [hclean]
  show semverParse (String.mk (repairPre (svChars v))) = _
  rw [hrep]
  exact semverParse_canonical v hwf hlen

theorem claim_c7_amended_witness :
    parseVersion "v"
        (normalizeVersion "v" (svToString ⟨1, 2, 3, [.str "beta".data, .num 1], []⟩)) =
      some ⟨1, 2, 3, [.str "beta".data, .num 1], []⟩ :=
  claim_c7_amended ⟨1, 2, 3, [.str "beta".data, .num 1], []⟩
    (by
      intro id hid
      fin_cases hid
      · exact ⟨by decide, by decide⟩
      · trivial)
    (by decide) (by decide)

-- ==================== C1: pre-release tie-break ====================

/-- **C1 counterexample** — the upgrade of the pre-release branch `beta`
ignores the PR labels entirely: with release base `1.0.0`, current
pre-release `1.1.0-beta.2` and label `major`, the result is
`1.1.0-beta.3` (plain counter increment), not the claimed `2.0.0-beta.0`. -/
theorem claim_c1_counterexample :
    upgradeManagerUpgrade "v" ["v1.1.0-beta.2", "v1.0.0"]
      { baseVersion := "1.1.0-beta.2", targetBranch := SupportedBranch.beta,
        sourceBranch := "feature", currentBranchType := "beta",
        parsed := ⟨1, 1, 0, [.str "beta".data, .num 2], []⟩, labels := some ["major"] } =
      .ok (some "1.1.0-beta.3") ∧
    ("1.1.0-beta.3" : String) ≠ "2.0.0-beta.0" :=
  ⟨rfl, by decide⟩

/-- **C1 (amended)** — the label-driven tie-break lives in the `alpha`
strategy (`calculateAlphaVersion`), producing `-alpha` versions: the target
base is the release base incremented by the label's bump kind; if the
target compares strictly greater than the current alpha base the result is
the target with the alpha counter reset to 0, and otherwise (target equal
or lower, alpha base distinct from the main base) only the existing alpha
version's pre-release counter is incremented. -/
theorem claim_c1_amended (cur : String) (mainV alphaV : Option String) (b tv : String)
    (rt : ReleaseType) (pa pt : SemVer)
    (ha : semverParse (cachedBaseOf cur alphaV) = some pa)
    (ht : semverIncBase (cachedBaseOf cur mainV) (mapBump rt) = some tv)
    (htp : semverParse tv = some pt) :
    (svCompare pt pa = Ordering.gt →
      calculateAlphaVersion cur mainV alphaV b rt = .ok (tv ++ "-alpha.0")) ∧
    (svCompare pt pa ≠ Ordering.gt →
      cachedBaseOf cur alphaV ≠ cachedBaseOf cur mainV →
      ∀ av, alphaV = some av →
        calculateAlphaVersion cur mainV alphaV b rt =
          .ok ((semverIncPrerelease av "alpha").getD av)) := by
  have hg : gtStr tv (cachedBaseOf cur alphaV) =
      some (decide (svCompare pt pa = Ordering.gt)) := by
    unfold gtStr
    rw [htp, ha]
  constructor
  · intro hgt
    unfold calculateAlphaVersion
    rw [ht]
    dsimp only
    by_cases heq : cachedBaseOf cur alphaV = cachedBaseOf cur mainV
    · rw [if_pos heq]
    · rw [if_neg heq, hg, hgt]
      rfl
  · intro hne hneq av hav
    unfold calculateAlphaVersion
    rw [ht]
    dsimp only
    rw [if_neg hneq, hg, decide_eq_false hne, hav]
    dsimp only
    cases semverIncPrerelease av "alpha" <;> rfl

theorem claim_c1_amended_witness :
    calculateAlphaVersion "v" (some "v1.0.0") (some "v1.1.0-alpha.2") "1.1.0-alpha.2"
        ReleaseType.preminor = .ok "1.1.0-alpha.3" ∧
    calculateAlphaVersion "v" (some "v1.0.0") (some "v1.1.0-alpha.2") "1.1.0-alpha.2"
        ReleaseType.premajor = .ok "2.0.0-alpha.0" := by
  constructor
  · have h := (claim_c1_amended "v" (some "v1.0.0") (some "v1.1.0-alpha.2") "1.1.0-alpha.2"
      "1.1.0" ReleaseType.preminor ⟨1, 1, 0, [], []⟩ ⟨1, 1, 0, [], []⟩
      (by decide) (by decide) (by decide)).2
      (by decide) (by decide) "v1.1.0-alpha.2" rfl
    rw [h]
    rfl
  · have h := (claim_c1_amended "v" (some "v1.0.0") (some "v1.1.0-alpha.2") "1.1.0-alpha.2"
      "2.0.0" ReleaseType.premajor ⟨1, 1, 0, [], []⟩ ⟨2, 0, 0, [], []⟩
      (by decide) (by decide) (by decide)).1 (by decide)
    rw [h]
    rfl

-- ==================== C3: label requirement ====================

/-- **C3 counterexample** — the `beta` strategy does not require a bump
label: a PR with no labels at all still produces a version change
(`1.1.0-beta.2` → `1.1.0-beta.3`), where the claim demands `null`. -/
theorem claim_c3_counterexample :
    upgradeManagerUpgrade "v" ["v1.1.0-beta.2"]
      { baseVersion := "1.1.0-beta.2", targetBranch := SupportedBranch.beta,
        sourceBranch := "feature", currentBranchType := "beta",
        parsed := ⟨1, 1, 0, [.str "beta".data, .num 2], []⟩, labels := none } =
      .ok (some "1.1.0-beta.3") ∧
    (some "1.1.0-beta.3" ≠ (none : Option String)) :=
  ⟨rfl, by decide⟩

/-- **C3 (amended)** — the label requirement holds for the `alpha`
strategy: with no PR, or no recognized bump label (`major`/`minor`/
`patch`), it returns `null` (no version change, not an error); with a
recognized label it defers to the tie-break calculation. -/
theorem claim_c3_amended (cur : String) (mainV alphaV : Option String) (ctx : UpgradeContext) :
    (ctx.labels = none → alphaStrategyExecute cur mainV alphaV ctx = .ok none) ∧
    (∀ ls, ctx.labels = some ls → getReleaseTypeFromLabels ls = none →
      alphaStrategyExecute cur mainV alphaV ctx = .ok none) ∧
    (∀ ls rt, ctx.labels = some ls → getReleaseTypeFromLabels ls = some rt →
      alphaStrategyExecute cur mainV alphaV ctx =
        (calculateAlphaVersion cur mainV alphaV ctx.baseVersion rt).map some) := by
  refine ⟨?_, ?_, ?_⟩
  · intro h
    unfold alphaStrategyExecute
    rw [h]
  · intro ls h hnone
    unfold alphaStrategyExecute
    rw [h]
    dsimp only
    cases ls with
    | nil => rfl
    | cons a as =>
      rw [show ((a :: as).isEmpty) = false from rfl]
      simp only [Bool.false_eq_true, if_false]
      rw [hnone]
  · intro ls rt h hrt
    unfold alphaStrategyExecute
    rw [h]
    dsimp only
    cases ls with
    | nil => simp [getReleaseTypeFromLabels] at hrt
    | cons a as =>
      rw [show ((a :: as).isEmpty) = false from rfl]
      simp only [Bool.false_eq_true, if_false]
      rw [hrt]
      dsimp only
      cases calculateAlphaVersion cur mainV alphaV ctx.baseVersion rt <;> rfl

theorem claim_c3_amended_witness :
    alphaStrategyExecute "v" (some "v1.0.0") (some "v1.1.0-alpha.2")
      { baseVersion := "1.1.0-alpha.2", targetBranch := SupportedBranch.alpha,
        sourceBranch := "feature", currentBranchType := "alpha",
        parsed := ⟨1, 1, 0, [.str "alpha".data, .num 2], []⟩,
        labels := some ["docs"] } = .ok none :=
  (claim_c3_amended "v" (some "v1.0.0") (some "v1.1.0-alpha.2")
    { baseVersion := "1.1.0-alpha.2", targetBranch := SupportedBranch.alpha,
      sourceBranch := "feature", currentBranchType := "alpha",
      parsed := ⟨1, 1, 0, [.str "alpha".data, .num 2], []⟩,
      labels := some ["docs"] }).2.1 ["docs"] rfl (by decide)

-- ==================== C4: synchronization cascade ====================

/-- **C4** — Synchronization cascade: in a run targeting `main` (with the
push-event auto-sync guard off), when the `main → beta` rebase edge fails,
`syncBranches` stops: its trace is exactly the failed edge's trace (the
`beta → alpha` edge issues no command) and its result list is exactly the
one failed entry. -/
theorem claim_c4_sync_cascade (env : GitEnv) (newVersion : String) (tr : Trace)
    (r : BranchSyncResult)
    (hguard : (env.eventName = "push" && isAutoSyncCommit env) = false)
    (hedge : syncDownstreamWithRebase env [] "main" "beta" newVersion = (tr, r))
    (hfail : r.success = false) :
    syncBranches env SupportedBranch.main newVersion = (tr, [r]) := by
  unfold syncBranches
  rw [hguard]
  simp only [Bool.false_eq_true, if_false]
  rw [hedge]
  dsimp only
  rw [hfail]
  simp

theorem claim_c4_sync_cascade_witness :
    syncBranches
      { gitOk := fun x => false, eventName := "pull_request", headCommitMessage := "",
        headSha := "abc", pkgOk := true, clExists := true, clStatusNonempty := true,
        npmOutcome := NpmOutcome.published }
      SupportedBranch.main "1.2.0" =
      ([["fetch", "origin", "beta"]],
       [{ success := false, version := none, conflicts := some ["main", "beta"],
          error := some "main -> beta rebase 同步失败: 执行 git fetch origin beta" }]) :=
  claim_c4_sync_cascade
    { gitOk := fun x => false, eventName := "pull_request", headCommitMessage := "",
      headSha := "abc", pkgOk := true, clExists := true, clStatusNonempty := true,
      npmOutcome := NpmOutcome.published }
    "1.2.0" [["fetch", "origin", "beta"]]
    { success := false, version := none, conflicts := some ["main", "beta"],
      error := some "main -> beta rebase 同步失败: 执行 git fetch origin beta" }
    rfl rfl rfl

-- ==================== C10: publish rollback ====================

theorem ne_of_data_head (a b : String) (c d : Char) (ta tb' : List Char)
    (ha : a.data = c :: ta) (hb : b.data = d :: tb') (hcd : ¬ c = d) : ¬ (a = b) := by
  intro h
  subst h
  rw [ha] at hb
  injection hb with h1 _
  exact hcd h1

/-- **C10** — Implicit publish rollback: when every git command succeeds,
the package file updates, and the CHANGELOG changed, a failed npm publish
(reported `false` or thrown) makes `updateVersionAndCreateTag` delete the
new tag locally (`tag -d`) and remotely (`push origin :refs/tags/…`), hard
reset to the recorded pre-change SHA, and force-push the branch — while a
successful publish issues none of those four commands. -/
theorem claim_c10_publish_rollback (env : GitEnv) (cur newVersion : String)
    (tb : SupportedBranch)
    (hok : ∀ a, env.gitOk a = true)
    (hpkg : env.pkgOk = true) (hcl : env.clExists = true)
    (hst : env.clStatusNonempty = true) :
    ((env.npmOutcome = NpmOutcome.reportedFalse ∨
        (∃ m, env.npmOutcome = NpmOutcome.threw m)) →
      ["tag", "-d", (versionParse cur newVersion).targetVersion] ∈
        (updateVersionAndCreateTag env cur newVersion tb).1 ∧
      ["push", "origin", ":refs/tags/" ++ (versionParse cur newVersion).targetVersion] ∈
        (updateVersionAndCreateTag env cur newVersion tb).1 ∧
      ["reset", "--hard", env.headSha] ∈ (updateVersionAndCreateTag env cur newVersion tb).1 ∧
      ["push", "--force-with-lease", "origin", branchName tb] ∈
        (updateVersionAndCreateTag env cur newVersion tb).1) ∧
    (env.npmOutcome = NpmOutcome.published →
      ["tag", "-d", (versionParse cur newVersion).targetVersion] ∉
        (updateVersionAndCreateTag env cur newVersion tb).1 ∧
      ["push", "origin", ":refs/tags/" ++ (versionParse cur newVersion).targetVersion] ∉
        (updateVersionAndCreateTag env cur newVersion tb).1 ∧
      ["reset", "--hard", env.headSha] ∉ (updateVersionAndCreateTag env cur newVersion tb).1 ∧
      ["push", "--force-with-lease", "origin", branchName tb] ∉
        (updateVersionAndCreateTag env cur newVersion tb).1) := by
  have hexec : ∀ (tr : Trace) (args : List String),
      execGitT env tr args = (tr ++ [args], Except.ok ()) := by
    intro tr args
    unfold execGitT
    rw [hok args]
    rfl
  have hrev : ∀ (tr : Trace),
      revParseHead env tr = (tr ++ [["rev-parse", "HEAD"]], Except.ok env.headSha) := by
    intro tr
    unfold revParseHead
    rw [hok]
    rfl
  have hcolon : ∀ (s : String),
      (":refs/tags/" ++ s).data = ':' :: ("refs/tags/".data ++ s.data) := by
    intro s
    rw [strData_append]
    rfl
  have h1 : ∀ s : String, ¬ (":refs/tags/" ++ s = s) := by
    intro s h
    have hd := congrArg String.data h
    rw [strData_append] at hd
    have hlen := congrArg List.length hd
    rw [List.length_append,
      show (((":refs/tags/" : String)).data).length = 11 from rfl] at hlen
    omega
  have h2 : ∀ s : String, ¬ (":refs/tags/" ++ s = branchName tb) := by
    intro s
    cases tb with
    | main => exact ne_of_data_head _ _ ':' 'm' _ _ (hcolon s) rfl (by decide)
    | beta => exact ne_of_data_head _ _ ':' 'b' _ _ (hcolon s) rfl (by decide)
    | alpha => exact ne_of_data_head _ _ ':' 'a' _ _ (hcolon s) rfl (by decide)
  have h3 : ∀ s t : String, ¬ (":refs/tags/" ++ s = "HEAD:refs/heads/" ++ t) := by
    intro s t
    exact ne_of_data_head _ _ ':' 'H' _ _ (hcolon s) (by rw [strData_append]; rfl) (by decide)
  constructor
  · intro hfail
    rcases hfail with hnpm | ⟨m, hnpm⟩ <;>
      refine ⟨?_, ?_, ?_, ?_⟩ <;>
        simp [updateVersionAndCreateTag, commitAndPushVersion, safePushWithRetry, pushOnce,
          hasChangelogChanges, commitChangelog, deleteTagSafely, cleanupTagAfterFailure,
          restoreBranchToSha, cleanupAfterPublishFailure, hexec, hrev, hok, hpkg, hcl, hst,
          hnpm]
  · intro hnpm
    refine ⟨?_, ?_, ?_, ?_⟩ <;>
      simp [updateVersionAndCreateTag, commitAndPushVersion, safePushWithRetry, pushOnce,
        hasChangelogChanges, commitChangelog, deleteTagSafely, cleanupTagAfterFailure,
        restoreBranchToSha, cleanupAfterPublishFailure, hexec, hrev, hok, hpkg, hcl, hst,
        hnpm, h1, h2, h3]

theorem claim_c10_publish_rollback_witness :
    ["tag", "-d", "v1.2.0"] ∈
      (updateVersionAndCreateTag
        { gitOk := fun x => true, eventName := "pull_request", headCommitMessage := "",
          headSha := "abc", pkgOk := true, clExists := true, clStatusNonempty := true,
          npmOutcome := NpmOutcome.reportedFalse } "v" "1.2.0" SupportedBranch.main).1 ∧
    ["reset", "--hard", "abc"] ∈
      (updateVersionAndCreateTag
        { gitOk := fun x => true, eventName := "pull_request", headCommitMessage := "",
          headSha := "abc", pkgOk := true, clExists := true, clStatusNonempty := true,
          npmOutcome := NpmOutcome.reportedFalse } "v" "1.2.0" SupportedBranch.main).1 := by
  have h := (claim_c10_publish_rollback
    { gitOk := fun x => true, eventName := "pull_request", headCommitMessage := "",
      headSha := "abc", pkgOk := true, clExists := true, clStatusNonempty := true,
      npmOutcome := NpmOutcome.reportedFalse } "v" "1.2.0" SupportedBranch.main
    (fun a => rfl) rfl rfl rfl).1 (Or.inl rfl)
  have hv : (versionParse "v" "1.2.0").targetVersion = "v1.2.0" := rfl
  rw [hv] at h
  exact ⟨h.1, h.2.2.1⟩
